import Mathlib

/-!
# Verification of the proglog storage engine

A shallow embedding of the layered commit-log storage engine
(`src/internal/log/{store,index,segment,log}.rs`): the length-prefix framed
store, the fixed-width memory-mapped index, the segment pairing them, and the
log managing a list of segments.  Bytes are modelled as `Nat` (each value kept
below 256 by construction), files as `List Nat`, machine integers as `Nat`/`Int`
with explicit `% 2^w` where the code casts, and fallible operations return
`Except`.  Rust panics (out-of-bounds indexing, `unwrap` on `None`) are
modelled as `Option.none` at the call sites where the code can panic.
-/

set_option maxRecDepth 8000

namespace Proglog

/-- The error kinds the engine distinguishes.  The Rust code uses
`std::io::ErrorKind::UnexpectedEof` for end-of-data and `ErrorKind::Other` with
a message for the rest; the streaming-read logic branches on the kind, so the
model keeps the kinds apart as constructors. -/
inductive IoErr where
  | unexpectedEof
  | offsetOutOfRange (off : Nat)
  | corruptLog
  | decodeError
  deriving DecidableEq, Repr

/-- Big-endian byte encoding of `n` truncated to `w` bytes (the value is taken
mod `256^w`, matching the wrapping integer casts in the code). -/
def beBytes : Nat → Nat → List Nat
  | 0, _ => []
  | w + 1, n => beBytes w (n / 256) ++ [n % 256]

/-- Big-endian decoding of a byte list (`byteorder::BigEndian::read_u{32,64}`). -/
def beDecode (bs : List Nat) : Nat :=
  bs.foldl (fun a b => a * 256 + b) 0

/-- 8-byte big-endian encoding (`write_u64::<BigEndian>`). -/
def u64be (n : Nat) : List Nat := beBytes 8 n

/-- 4-byte big-endian encoding (`write_u32::<BigEndian>`). -/
def u32be (n : Nat) : List Nat := beBytes 4 n

/-- Pad a byte list on the right with zeroes up to width `w` (a fixed-size read
buffer is zero-initialised; a short positional read leaves the tail zero). -/
def padTo (w : Nat) (l : List Nat) : List Nat :=
  l ++ List.replicate (w - l.length) 0

/-- Resize a byte list to exactly `w` bytes, zero-filling (models
`File::set_len`, which truncates or zero-extends the file). -/
def toSize (w : Nat) (l : List Nat) : List Nat :=
  l.take w ++ List.replicate (w - l.length) 0

/-- Overwrite the bytes of `m` starting at position `k` with `bs` (models a
write into the memory map). -/
def writeAt (m : List Nat) (k : Nat) (bs : List Nat) : List Nat :=
  m.take k ++ bs ++ m.drop (k + bs.length)

/-- Configuration (`config.rs` is absent from `src/`; the struct's fields and
the zero-defaulting in `Log::new` fix it completely: `{ max_store_bytes,
max_index_bytes, initial_offset }`, the first two defaulting to 1024). -/
structure Config where
  max_store_bytes : Nat
  max_index_bytes : Nat
  initial_offset : Nat
  deriving DecidableEq, Repr

/-- The zero-value normalisation performed at the top of `Log::new`. -/
def Config.normalize (c : Config) : Config :=
  { c with
    max_store_bytes := if c.max_store_bytes = 0 then 1024 else c.max_store_bytes
    max_index_bytes := if c.max_index_bytes = 0 then 1024 else c.max_index_bytes }

/-- A record: an opaque byte value plus the logical offset the engine assigns
on append (the protobuf-generated `Record` with fields `value` and `offset`). -/
structure Record where
  value : List Nat
  offset : Nat
  deriving DecidableEq, Repr

/-- Modelled from the spec: the collaborator-supplied record codec of spec
section 6.2 (`encode(record) → bytes`).  The repository's concrete codec is
protobuf code generated from `proto/log.proto`, which is not under `src/`; the
model uses a concrete executable encoding (8-byte big-endian offset followed by
the value) that satisfies the contract of section 6.2: the record carries a
writable `offset` field and the encoded form is delimited by the store's length
prefix. -/
def encodeRecord (r : Record) : List Nat :=
  u64be r.offset ++ r.value

/-- Modelled from the spec: the collaborator-supplied record codec of spec
section 6.2 (`decode(bytes) → record`), the inverse of `encodeRecord`. -/
def decodeRecord (bs : List Nat) : Except IoErr Record :=
  if bs.length < 8 then .error .decodeError
  else .ok ⟨bs.drop 8, beDecode (bs.take 8)⟩

/-- `Store` (`store.rs`): an append-only file of length-prefixed frames.
`data` is the byte content written so far (buffered writes included; every
read path flushes first, so the distinction is unobservable), `size` the
logical size, `offset` the streaming-read cursor. -/
structure Store where
  data : List Nat
  size : Nat
  offset : Nat
  deriving DecidableEq, Repr

/-- Decidable equality for `Except` results (the library derives none). -/
instance instDecEqExcept {ε α : Type} [DecidableEq ε] [DecidableEq α] :
    DecidableEq (Except ε α) := fun x y =>
  match x, y with
  | .ok a, .ok b =>
    if h : a = b then isTrue (by rw [h])
    else isFalse (by intro he; cases he; exact h rfl)
  | .error a, .error b =>
    if h : a = b then isTrue (by rw [h])
    else isFalse (by intro he; cases he; exact h rfl)
  | .ok _, .error _ => isFalse (by intro he; cases he)
  | .error _, .ok _ => isFalse (by intro he; cases he)

/-- `Store::new`: captures the existing file length as `size`; cursor at 0. -/
def Store.fromFile (file : List Nat) : Store :=
  ⟨file, file.length, 0⟩

/-- `Store::append`: writes `len:u64 BE || payload` at the end, advances
`size` by `8 + len`, returns `(bytes_written, start_position)`. -/
def Store.append (st : Store) (p : List Nat) : Store × Nat × Nat :=
  let pos := st.size
  let w := 8 + p.length
  (⟨st.data ++ u64be p.length ++ p, st.size + w, st.offset⟩, w, pos)

/-- `Store::read_at_offset`: flushes, reads the 8-byte length prefix at `pos`
(a short read leaves the zero-initialised buffer tail untouched), then reads
exactly `len` bytes at `pos + 8` (`read_exact_at` fails with
`unexpected-end-of-file` when fewer are available). -/
def Store.read_at_offset (st : Store) (pos : Nat) : Except IoErr (List Nat) :=
  let len := beDecode (padTo 8 ((st.data.drop pos).take 8))
  if st.data.length < pos + 8 + len then .error .unexpectedEof
  else .ok ((st.data.drop (pos + 8)).take len)

/-- `<Store as Read>::read`: returns 0 once the cursor has reached `size`;
otherwise positional-reads at the cursor into a `bufLen`-byte buffer and
advances the cursor by the count `read_at` reports — which is the full
`bufLen` regardless of how many bytes were actually available.  The result
carries the reported count and the bytes actually read. -/
def Store.readStream (st : Store) (bufLen : Nat) :
    Except IoErr ((Nat × List Nat) × Store) :=
  if st.size ≤ st.offset then .ok ((0, []), st)
  else .ok ((bufLen, (st.data.drop st.offset).take bufLen),
    ⟨st.data, st.size, st.offset + bufLen⟩)

/-- `Index` (`index.rs`): a memory-mapped file of fixed-width 12-byte entries.
`mmap` is the mapped byte content (length `max_index_bytes` after `new`),
`size` the number of bytes in use. -/
structure Index where
  mmap : List Nat
  size : Nat
  deriving DecidableEq, Repr

/-- `Index::new`: captures the on-disk length as `size`, grows (or truncates)
the file to `max_index_bytes`, and maps it. -/
def Index.fromFile (c : Config) (file : List Nat) : Index :=
  ⟨toSize c.max_index_bytes file, file.length⟩

/-- `Index::read`: fails with `unexpected-end-of-file` on an empty index;
input `-1` resolves to the last entry `size/12 - 1`; a resolved entry whose
byte range exceeds `size` fails with `unexpected-end-of-file`; otherwise the
entry is decoded big-endian.  The `as u32` casts are the explicit `% 2^32`. -/
def Index.read (ix : Index) (inp : Int) : Except IoErr (Nat × Nat) :=
  if ix.size = 0 then .error .unexpectedEof
  else
    let out : Nat :=
      if inp = -1 then (ix.size / 12 - 1) % 2 ^ 32
      else (inp % (2 ^ 32 : Int)).toNat
    let pos := out * 12
    if ix.size < pos + 12 then .error .unexpectedEof
    else .ok (beDecode ((ix.mmap.drop pos).take 4),
      beDecode ((ix.mmap.drop (pos + 4)).take 8))

/-- `Index::write`: fails with `unexpected-end-of-file` when the map has no
room for another entry; otherwise writes the big-endian pair at
`mmap[size .. size+12]` and advances `size` by 12. -/
def Index.write (ix : Index) (offset pos : Nat) : Except IoErr Index :=
  if ix.mmap.length < ix.size + 12 then .error .unexpectedEof
  else .ok ⟨writeAt ix.mmap ix.size (u32be offset ++ u64be pos), ix.size + 12⟩

/-- Run a sequence of `Index::write` calls, stopping at the first error. -/
def Index.writeSeq (ix : Index) : List (Nat × Nat) → Except IoErr Index
  | [] => .ok ix
  | e :: rest =>
    match ix.write e.1 e.2 with
    | .ok ix' => ix'.writeSeq rest
    | .error err => .error err

/-- The on-disk index file after `Index::close`: the map is flushed and the
file truncated to `size`. -/
def Index.closedFile (ix : Index) : List Nat :=
  ix.mmap.take ix.size

/-- `Segment` (`segment.rs`): one store plus one index (`Option`-wrapped so
`close` can consume them), the base offset and the next offset. -/
structure Segment where
  store : Option Store
  index : Option Index
  base_offset : Nat
  next_offset : Nat
  config : Config
  deriving DecidableEq, Repr

/-- `Segment::new` over the given on-disk file contents: builds the store and
the index from their files, then derives `next_offset` from the index's last
entry (`base + last_relative_offset + 1` if `read(-1)` succeeds, else
`base`). -/
def segmentFromFiles (c : Config) (base : Nat) (storeFile indexFile : List Nat) :
    Segment :=
  let st := Store.fromFile storeFile
  let ix := Index.fromFile c indexFile
  let next :=
    match ix.read (-1) with
    | .ok (off, _) => base + off + 1
    | .error _ => base
  ⟨some st, some ix, base, next, c⟩

/-- A segment opened on a fresh directory (both files empty). -/
def freshSegment (c : Config) (base : Nat) : Segment :=
  segmentFromFiles c base [] []

/-- `Segment::append`: stamps `next_offset` on the record, encodes it, appends
the frame to the store, then writes `(relative_offset, position)` to the index
and bumps `next_offset`, returning the assigned offset.  If the index write
fails the store has already grown; the error propagates with `next_offset`
and the index unchanged.  `Ok(None)` is returned when store or index has been
consumed by `close`. -/
def Segment.append (s : Segment) (r : Record) :
    Except IoErr (Option Nat) × Segment :=
  let cur := s.next_offset
  let offset := s.next_offset - s.base_offset
  match s.store, s.index with
  | some st, some ix =>
    let buf := encodeRecord { r with offset := cur }
    let res := st.append buf
    let st' := res.1
    let pos := res.2.2
    match ix.write offset pos with
    | .error e => (.error e, { s with store := some st' })
    | .ok ix' =>
      (.ok (some cur),
        { s with store := some st', index := some ix',
                 next_offset := s.next_offset + 1 })
  | _, _ => (.ok none, s)

/-- `Segment::read_at_offset`: looks up `offset - base_offset` in the index to
get the store position, reads the frame there and decodes it.  `Ok(None)` when
the store or index has been consumed. -/
def Segment.read_at_offset (s : Segment) (offset : Nat) :
    Except IoErr (Option Record) :=
  match s.store, s.index with
  | some st, some ix =>
    match ix.read ((offset - s.base_offset : Nat) : Int) with
    | .error e => .error e
    | .ok e =>
      match st.read_at_offset e.2 with
      | .error e2 => .error e2
      | .ok buf =>
        match decodeRecord buf with
        | .error e3 => .error e3
        | .ok r => .ok (some r)
  | _, _ => .ok none

/-- `Segment::is_maxed`: the store or the index has reached its configured
cap; `false` when store or index has been consumed. -/
def Segment.is_maxed (s : Segment) : Bool :=
  match s.store, s.index with
  | some st, some ix =>
    decide (s.config.max_store_bytes ≤ st.size) ||
      decide (s.config.max_index_bytes ≤ ix.size)
  | _, _ => false

/-- `<Segment as Read>::read`: delegates to the store's streaming read;
returns 0 when the store has been consumed. -/
def Segment.readStream (s : Segment) (bufLen : Nat) :
    Except IoErr ((Nat × List Nat) × Segment) :=
  match s.store with
  | some st =>
    (st.readStream bufLen).map (fun x => (x.1, { s with store := some x.2 }))
  | none => .ok ((0, []), s)

/-- The segment state left behind by a failing `Segment::append` whose store
was `st`: the store has grown by the encoded frame, everything else is
unchanged. -/
def orphanSegment (seg : Segment) (st : Store) (r : Record) : Segment :=
  { seg with
    store := some (st.append (encodeRecord { r with offset := seg.next_offset })).1 }

/-- The store size of a segment (0 when the store has been consumed). -/
def storeSizeOf (s : Segment) : Nat :=
  match s.store with
  | some st => st.size
  | none => 0

/-- The store bytes of a segment (empty when the store has been consumed). -/
def storeDataOf (s : Segment) : List Nat :=
  match s.store with
  | some st => st.data
  | none => []

/-- The index size of a segment (0 when the index has been consumed). -/
def indexSizeOf (s : Segment) : Nat :=
  match s.index with
  | some ix => ix.size
  | none => 0

/-- `Log` (`log.rs`): the configuration, the index of the active segment, the
ordered segment list (`Option`-wrapped slots, as in the source) and the
streaming-read cursor. -/
structure Log where
  config : Config
  active_segment : Nat
  segments : List (Option Segment)
  reader_idx : Nat
  deriving DecidableEq, Repr

/-- `Log::new` on an empty directory: normalises the configuration; `setup`
finds no files and opens a single segment at `initial_offset`. -/
def Log.newEmpty (c : Config) : Log :=
  let c' := c.normalize
  ⟨c', 0, [some (freshSegment c' c'.initial_offset)], 0⟩

/-- `Log::new_segment`: opens a segment at `offset` (fresh files on a
directory with no leftovers at that base), pushes it and makes it active. -/
def Log.pushSegment (l : Log) (offset : Nat) : Log :=
  { l with segments := l.segments ++ [some (freshSegment l.config offset)],
           active_segment := l.segments.length }

/-- `Log::append`: delegates to the active segment; on success, if that
segment is now maxed, opens a new segment at `assigned + 1`.  Indexing
`segments[active_segment]` out of bounds is a Rust panic, modelled as
`none`. -/
def Log.append (l : Log) (r : Record) :
    Option (Except IoErr (Option Nat) × Log) :=
  match l.segments[l.active_segment]? with
  | none => none
  | some none => some (.ok none, l)
  | some (some seg) =>
    match seg.append r with
    | (.error e, seg') =>
      some (.error e, { l with segments := l.segments.set l.active_segment (some seg') })
    | (.ok none, seg') =>
      some (.ok none, { l with segments := l.segments.set l.active_segment (some seg') })
    | (.ok (some o), seg') =>
      let l' := { l with segments := l.segments.set l.active_segment (some seg') }
      if seg'.is_maxed then some (.ok (some o), l'.pushSegment (o + 1))
      else some (.ok (some o), l')

/-- `Log::read_at_offset`: finds the first segment whose
`[base_offset, next_offset)` range contains `offset` (consumed `None` slots
never match); fails with the offset-out-of-range error when none does. -/
def Log.read_at_offset (l : Log) (offset : Nat) : Except IoErr (Option Record) :=
  match l.segments.find? (fun os =>
      match os with
      | some s => decide (s.base_offset ≤ offset) && decide (offset < s.next_offset)
      | none => false) with
  | none => .error (.offsetOutOfRange offset)
  | some none => .ok none
  | some (some s) => s.read_at_offset offset

/-- `Log::lowest_offset`: `base_offset` of `segments[0]`;
the corrupt-log error when that slot is `None`; indexing an empty list is a
Rust panic, modelled as `none`. -/
def Log.lowestOffset (l : Log) : Option (Except IoErr Nat) :=
  match l.segments[0]? with
  | none => none
  | some none => some (.error .corruptLog)
  | some (some s) => some (.ok s.base_offset)

/-- `Log::highest_offset`: `next_offset - 1` of the last segment (or 0 when
`next_offset` is 0); the corrupt-log error when the last slot is `None`;
`last().unwrap()` on an empty list is a Rust panic, modelled as `none`. -/
def Log.highestOffset (l : Log) : Option (Except IoErr Nat) :=
  match l.segments.getLast? with
  | none => none
  | some none => some (.error .corruptLog)
  | some (some s) =>
    if s.next_offset = 0 then some (.ok 0) else some (.ok (s.next_offset - 1))

/-- `Log::truncate`: removes (and deletes the files of) every segment whose
`next_offset ≤ lowest + 1`, keeps the rest in order, and resets the
streaming-read cursor to 0.  Consumed `None` slots are dropped. -/
def Log.truncate (l : Log) (lowest : Nat) : Log :=
  { l with
    segments := l.segments.filterMap (fun os =>
      match os with
      | none => none
      | some s => if s.next_offset ≤ lowest + 1 then none else some (some s))
    reader_idx := 0 }

/-- The loop of `<Log as Read>::read`: returns 0 once `reader_idx` runs
past the segment list; skips consumed `None` slots; otherwise serves one read
from the segment at the cursor, advancing the cursor only when that segment
reports `unexpected-end-of-file`.  The first argument is structural fuel,
always instantiated with `segs.length - i`, so that it reaches 0 exactly when
the cursor has run past the list (both cases return 0 bytes). -/
def Log.readAux : Nat → List (Option Segment) → Nat → Nat →
    Except IoErr ((Nat × List Nat) × List (Option Segment) × Nat)
  | 0, segs, i, _ => .ok ((0, []), segs, i)
  | d + 1, segs, i, bufLen =>
    match segs[i]? with
    | none => .ok ((0, []), segs, i)
    | some none => Log.readAux d segs (i + 1) bufLen
    | some (some seg) =>
      match seg.readStream bufLen with
      | .ok (res, seg') => .ok (res, segs.set i (some seg'), i)
      | .error e =>
        if e = .unexpectedEof then Log.readAux d segs (i + 1) bufLen
        else .error e

/-- `<Log as Read>::read` into a `bufLen`-byte buffer. -/
def Log.readStream (l : Log) (bufLen : Nat) :
    Except IoErr ((Nat × List Nat) × Log) :=
  (Log.readAux (l.segments.length - l.reader_idx) l.segments l.reader_idx
    bufLen).map (fun x =>
      (x.1, { l with segments := x.2.1, reader_idx := x.2.2 }))

/-- The value carried by a successful non-`None` read, if any. -/
def extractValue : Except IoErr (Option Record) → Option (List Nat)
  | .ok (some r) => some r.value
  | _ => none

/-- Run a sequence of `Log::append` calls with the given values, requiring
every call to return `Ok(Some(offset))`; collects the assigned offsets. -/
def Log.appendValues (l : Log) : List (List Nat) → Option (List Nat × Log)
  | [] => some ([], l)
  | v :: rest =>
    match l.append ⟨v, 0⟩ with
    | some (.ok (some o), l') =>
      (l'.appendValues rest).map (fun x => (o :: x.1, x.2))
    | _ => none

/-- One frame of the store: the length prefix followed by the encoded record
with value `v` and offset `o`. -/
def frameBytes (v : List Nat) (o : Nat) : List Nat :=
  u64be (8 + v.length) ++ u64be o ++ v

/-- The store content of a segment holding `k` records: values taken from the
global value list `vs` at positions `base - init + j`, record offsets
`base + j`. -/
def segData (vs : List (List Nat)) (init base : Nat) : Nat → List Nat
  | 0 => []
  | k + 1 => segData vs init base k ++
      frameBytes (vs.getD (base - init + k) []) (base + k)

/-- Total store bytes generated by a value list: each value costs a frame of
`8` (length prefix) `+ 8` (encoded offset) `+ |value|` bytes. -/
def totalBytes (vs : List (List Nat)) : Nat :=
  (vs.map (fun v => 16 + v.length)).sum

/-- The invariant a segment of a running log satisfies, relative to the
normalised configuration `c`, the log's initial offset `init` and the list
`vs` of all values appended so far: the segment holds the records with
offsets `[base_offset, next_offset)`, its store is the concatenation of their
frames, and index entry `j` holds `(j, position of frame j)`. -/
def SegOK (c : Config) (init : Nat) (vs : List (List Nat)) (s : Segment) : Prop :=
  ∃ st ix, s.store = some st ∧ s.index = some ix ∧
    s.config = c ∧
    init ≤ s.base_offset ∧
    s.base_offset ≤ s.next_offset ∧
    s.next_offset ≤ init + vs.length ∧
    ix.size = 12 * (s.next_offset - s.base_offset) ∧
    ix.mmap.length = c.max_index_bytes ∧
    st.data = segData vs init s.base_offset (s.next_offset - s.base_offset) ∧
    st.size = st.data.length ∧
    (∀ j, j < s.next_offset - s.base_offset →
      (ix.mmap.drop (j * 12)).take 4 = u32be j ∧
      (ix.mmap.drop (j * 12 + 4)).take 8 =
        u64be (segData vs init s.base_offset j).length)

/-- A chain of well-formed segments covering the offsets `[start, e)`
contiguously, in order. -/
inductive SegChain (c : Config) (init : Nat) (vs : List (List Nat)) :
    Nat → List Segment → Nat → Prop where
  | nil (e : Nat) : SegChain c init vs e [] e
  | cons (s : Segment) (rest : List Segment) (e : Nat) :
      SegOK c init vs s →
      SegChain c init vs s.next_offset rest e →
      SegChain c init vs s.base_offset (s :: rest) e

/-- The invariant of a log reached from an empty directory by appending the
values `vs`: a non-empty list of well-formed segments chaining from `init` to
`init + vs.length`, the last one active. -/
def LogWF (c : Config) (init : Nat) (vs : List (List Nat)) (l : Log) : Prop :=
  ∃ segs : List Segment, l.segments = segs.map some ∧ segs ≠ [] ∧
    l.config = c ∧
    l.active_segment = segs.length - 1 ∧
    SegChain c init vs init segs (init + vs.length)

/-- Reopening a closed log on the same directory (`Log::close` followed by
`Log::new` with the same configuration): per segment, the store file holds the
flushed store bytes and the index file is truncated to the index size;
`setup` parses each base offset twice (once per file), sorts, strides by 2,
and opens a segment per base in order, the last one becoming active. -/
def reopenLog (c : Config) (segs : List Segment) : Log :=
  let c' := c.normalize
  let newsegs : List (Option Segment) := segs.map (fun s =>
    some (segmentFromFiles c' s.base_offset
      (match s.store with | some st => st.data | none => [])
      (match s.index with | some ix => ix.closedFile | none => [])))
  ⟨c', newsegs.length - 1, newsegs, 0⟩

/-- Concrete witness index: the result of writing `(0,5)` then `(1,7)` into a
fresh index with `max_index_bytes = 36`. -/
def c5Index : Index :=
  (((Index.fromFile ⟨32, 36, 0⟩ []).writeSeq [(0, 5), (1, 7)]).toOption).getD ⟨[], 0⟩

/-- Concrete witness log for the streaming-read analysis: two appends with
`max_store_bytes = 17`, so each append fills a segment and rolls over, leaving
one frame in each of the first two segments. -/
def c2Log : Log :=
  (((Log.newEmpty ⟨17, 1024, 0⟩).appendValues [[1], [2]]).map Prod.snd).getD
    (Log.newEmpty ⟨17, 1024, 0⟩)

/-- The witness log after one streaming read of 17 bytes. -/
def c2LogAfter : Log :=
  (((c2Log.readStream 17).toOption).map (fun x => x.2)).getD c2Log

/-- Concrete witness log whose single (active) segment has a full index while
remaining open: `max_index_bytes = 20` leaves room for one entry but makes a
second entry overflow the map without ever tripping `is_maxed`. -/
def c10Log : Log :=
  (((Log.newEmpty ⟨1024, 20, 0⟩).appendValues [[7]]).map Prod.snd).getD
    (Log.newEmpty ⟨1024, 20, 0⟩)

/-- Concrete witness log: one successful append on a fresh log. -/
def c6Log : Log :=
  (((Log.newEmpty ⟨32, 36, 0⟩).appendValues [[1, 2]]).map Prod.snd).getD
    (Log.newEmpty ⟨32, 36, 0⟩)

/-- The store bytes behind a segment slot (empty for consumed/missing). -/
def segSlotStoreData (os : Option Segment) : List Nat :=
  match os with
  | some s => storeDataOf s
  | none => []

/-- Concrete witness log for truncation: three appends with rollover after
every second record (`max_store_bytes = 32`). -/
def c7Log : Log :=
  (((Log.newEmpty ⟨32, 36, 0⟩).appendValues [[1], [2], [3]]).map Prod.snd).getD
    (Log.newEmpty ⟨32, 36, 0⟩)

/-- The segments of `c7Log`, unwrapped. -/
def c7Segs : List Segment :=
  c7Log.segments.filterMap id

/-- Concrete witness log for the append/read round trip: two appends, the
second one triggering rollover (`max_store_bytes = 32`). -/
def c1Log : Log :=
  (((Log.newEmpty ⟨32, 36, 0⟩).appendValues [[1, 2], [3]]).map Prod.snd).getD
    (Log.newEmpty ⟨32, 36, 0⟩)

/-- The offsets assigned by the `c1Log` run. -/
def c1Offs : List Nat :=
  (((Log.newEmpty ⟨32, 36, 0⟩).appendValues [[1, 2], [3]]).map Prod.fst).getD []

/-- The segments of `c1Log`, unwrapped. -/
def c1Segs : List Segment :=
  c1Log.segments.filterMap id

/-- The (decidable) well-formedness a segment of a running log always has,
stated relative to the configuration `c` it will be reopened with: store and
index present, the index holds exactly `next_offset - base_offset` entries
that fit its map and the configured cap, and — unless the segment is empty —
the last entry's offset field holds the last relative offset. -/
def segReopenOK (c : Config) (s : Segment) : Bool :=
  match s.store, s.index with
  | some _, some ix =>
    decide (ix.size = 12 * (s.next_offset - s.base_offset)) &&
    decide (s.base_offset ≤ s.next_offset) &&
    decide (ix.size ≤ ix.mmap.length) &&
    decide (ix.size ≤ c.max_index_bytes) &&
    decide (s.next_offset - s.base_offset < 2 ^ 32) &&
    (decide (s.next_offset = s.base_offset) ||
      decide ((ix.mmap.drop (ix.size - 12)).take 4 =
        u32be (s.next_offset - s.base_offset - 1)))
  | _, _ => false

end Proglog

namespace Proglog

theorem beBytes_length (w n : Nat) : (beBytes w n).length = w := by
  induction w generalizing n with
  | zero => rfl
  | succ w ih => simp [beBytes, ih]

theorem beDecode_foldl (bs : List Nat) (acc : Nat) :
    (bs.foldl (fun a b => a * 256 + b) acc) =
      acc * 256 ^ bs.length + beDecode bs := by
  induction bs generalizing acc with
  | nil => simp [beDecode]
  | cons b bs ih =>
    have hb : beDecode (b :: bs) = b * 256 ^ bs.length + beDecode bs := by
      have h0 : beDecode (b :: bs) = bs.foldl (fun a b => a * 256 + b) b := by
        simp [beDecode]
      rw [h0, ih b]
    simp only [List.foldl_cons, List.length_cons]
    rw [ih (acc * 256 + b), hb]
    ring

theorem beDecode_append (xs ys : List Nat) :
    beDecode (xs ++ ys) = beDecode xs * 256 ^ ys.length + beDecode ys := by
  unfold beDecode
  rw [List.foldl_append]
  exact beDecode_foldl ys (xs.foldl (fun a b => a * 256 + b) 0)

theorem beDecode_beBytes (w n : Nat) : beDecode (beBytes w n) = n % 256 ^ w := by
  induction w generalizing n with
  | zero => simp [beBytes, beDecode, Nat.mod_one]
  | succ w ih =>
    rw [beBytes, beDecode_append, ih]
    simp only [beDecode, List.length_singleton, List.foldl_cons, List.foldl_nil,
      pow_one, Nat.zero_mul, Nat.zero_add]
    have h : 256 ^ (w + 1) = 256 * 256 ^ w := by ring
    rw [h, Nat.mod_mul]
    ring

theorem beDecode_u64be (n : Nat) : beDecode (u64be n) = n % 2 ^ 64 := by
  have h : (256 : Nat) ^ 8 = 2 ^ 64 := by norm_num
  rw [u64be, beDecode_beBytes, h]

theorem beDecode_u32be (n : Nat) : beDecode (u32be n) = n % 2 ^ 32 := by
  have h : (256 : Nat) ^ 4 = 2 ^ 32 := by norm_num
  rw [u32be, beDecode_beBytes, h]

theorem u64be_length (n : Nat) : (u64be n).length = 8 := beBytes_length 8 n

theorem u32be_length (n : Nat) : (u32be n).length = 4 := beBytes_length 4 n

theorem padTo_of_length_eq (w : Nat) (l : List Nat) (h : l.length = w) :
    padTo w l = l := by
  simp [padTo, h]

theorem toSize_length (w : Nat) (l : List Nat) : (toSize w l).length = w := by
  simp only [toSize, List.length_append, List.length_take, List.length_replicate]
  omega

theorem writeAt_length (m bs : List Nat) (k : Nat)
    (h : k + bs.length ≤ m.length) : (writeAt m k bs).length = m.length := by
  simp only [writeAt, List.length_append, List.length_take, List.length_drop]
  omega

/-- Reading a window that lies inside the first component of an append only
sees that component. -/
theorem drop_take_append_left (l r : List Nat) (p t : Nat)
    (h : p + t ≤ l.length) :
    ((l ++ r).drop p).take t = (l.drop p).take t := by
  rw [List.drop_append_eq_append_drop]
  have h1 : p - l.length = 0 := by omega
  rw [h1, List.drop_zero, List.take_append_eq_append_take]
  have h2 : t - (l.drop p).length = 0 := by
    simp only [List.length_drop]; omega
  rw [h2, List.take_zero, List.append_nil]

/-- Reading a window that starts past the first component of an append only
sees the second component. -/
theorem drop_append_of_length_le (l r : List Nat) (p : Nat)
    (h : p = l.length) : (l ++ r).drop p = r := by
  subst h
  simp

/-- The window `[k, k + bs.length)` of `writeAt m k bs` is `bs`. -/
theorem writeAt_read_new (m bs : List Nat) (k : Nat)
    (hk : k ≤ m.length) :
    ((writeAt m k bs).drop k).take bs.length = bs := by
  unfold writeAt
  rw [List.append_assoc]
  rw [drop_append_of_length_le (m.take k) _ k (by simp [List.length_take]; omega)]
  rw [List.take_append_eq_append_take]
  simp

/-- Windows entirely below position `k` are untouched by `writeAt m k bs`. -/
theorem writeAt_read_old (m bs : List Nat) (k p t : Nat)
    (h : p + t ≤ k) (hk : k ≤ m.length) :
    ((writeAt m k bs).drop p).take t = (m.drop p).take t := by
  unfold writeAt
  rw [List.append_assoc]
  rw [drop_take_append_left (m.take k) _ p t (by simp [List.length_take]; omega)]
  have h1 : min t (k - p) = t := by omega
  rw [List.drop_take, List.take_take, h1]

theorem decodeRecord_encodeRecord (r : Record) :
    decodeRecord (encodeRecord r) = .ok ⟨r.value, r.offset % 2 ^ 64⟩ := by
  unfold decodeRecord encodeRecord
  have h8 : (u64be r.offset).length = 8 := u64be_length r.offset
  rw [if_neg (by simp [h8])]
  have htake0 : (u64be r.offset).take 8 = u64be r.offset := by
    have h := List.take_length (u64be r.offset)
    rwa [h8] at h
  have htake : (u64be r.offset ++ r.value).take 8 = u64be r.offset := by
    rw [List.take_append_eq_append_take, htake0, h8]
    simp
  have hdrop : (u64be r.offset ++ r.value).drop 8 = r.value :=
    drop_append_of_length_le _ _ 8 h8.symm
  rw [htake, hdrop, beDecode_u64be]

theorem encodeRecord_length (r : Record) :
    (encodeRecord r).length = 8 + r.value.length := by
  simp [encodeRecord, u64be_length]

theorem natCast_emod_toNat (n m : Nat) :
    (((n : Int)) % ((m : Int))).toNat = n % m := by
  omega

/-- Reading entry `j` of an index whose bytes at `[12j, 12j+12)` hold the
big-endian pair `(a, b)`. -/
theorem Index.read_entry (ix : Index) (j a b : Nat)
    (hj : j < 2 ^ 32) (hsz : j * 12 + 12 ≤ ix.size)
    (ha : (ix.mmap.drop (j * 12)).take 4 = u32be a)
    (hb : (ix.mmap.drop (j * 12 + 4)).take 8 = u64be b) :
    ix.read ((j : Nat) : Int) = .ok (a % 2 ^ 32, b % 2 ^ 64) := by
  unfold Index.read
  rw [if_neg (by omega)]
  have hne : ((j : Nat) : Int) ≠ -1 := by omega
  rw [if_neg hne]
  have hcast : (((j : Nat) : Int) % ((2 : Int) ^ 32)).toNat = j % 2 ^ 32 := by
    have h := natCast_emod_toNat j (2 ^ 32)
    simpa using h
  rw [hcast, Nat.mod_eq_of_lt hj]
  rw [if_neg (by omega)]
  rw [ha, hb, beDecode_u32be, beDecode_u64be]

/-- Reading a resolved entry whose byte range exceeds `size` fails with
`unexpected-end-of-file`. -/
theorem Index.read_out_of_range (ix : Index) (j : Nat)
    (hj : j < 2 ^ 32) (h0 : ix.size ≠ 0) (hsz : ix.size < j * 12 + 12) :
    ix.read ((j : Nat) : Int) = .error .unexpectedEof := by
  unfold Index.read
  rw [if_neg h0]
  have hne : ((j : Nat) : Int) ≠ -1 := by omega
  rw [if_neg hne]
  have hcast : (((j : Nat) : Int) % ((2 : Int) ^ 32)).toNat = j % 2 ^ 32 := by
    have h := natCast_emod_toNat j (2 ^ 32)
    simpa using h
  rw [hcast, Nat.mod_eq_of_lt hj]
  rw [if_pos (by omega)]

/-- `read(-1)` resolves to the last entry `size/12 - 1`. -/
theorem Index.read_neg_one (ix : Index)
    (h12 : 12 ≤ ix.size) (hbound : ix.size / 12 ≤ 2 ^ 32) :
    ix.read (-1) = ix.read ((ix.size / 12 - 1 : Nat) : Int) := by
  have h0 : ix.size ≠ 0 := by omega
  unfold Index.read
  rw [if_neg h0, if_neg h0]
  rw [if_pos rfl]
  have hlt : ix.size / 12 - 1 < 2 ^ 32 := by
    have := Nat.div_le_self ix.size 12
    omega
  have hne : ((ix.size / 12 - 1 : Nat) : Int) ≠ -1 := by omega
  rw [if_neg hne]
  have hcast : (((ix.size / 12 - 1 : Nat) : Int) % ((2 : Int) ^ 32)).toNat =
      (ix.size / 12 - 1) % 2 ^ 32 := by
    have h := natCast_emod_toNat (ix.size / 12 - 1) (2 ^ 32)
    simpa using h
  rw [hcast]

/-- C4: `Index::read` fails with `unexpected-end-of-file` when `size == 0`;
input `-1` resolves to entry index `size/12 - 1`; a resolved entry whose byte
range exceeds `size` fails with `unexpected-end-of-file`; otherwise the
`(relative_offset, position)` pair is decoded big-endian from bytes
`[i*12, i*12+12)` of the map. -/
theorem c4_index_read_spec (ix : Index) :
    (ix.size = 0 → ∀ i : Int, ix.read i = .error .unexpectedEof) ∧
    (12 ≤ ix.size → ix.size / 12 ≤ 2 ^ 32 →
      ix.read (-1) = ix.read ((ix.size / 12 - 1 : Nat) : Int)) ∧
    (∀ i : Nat, i < 2 ^ 32 → ix.size ≠ 0 → ix.size < i * 12 + 12 →
      ix.read ((i : Nat) : Int) = .error .unexpectedEof) ∧
    (∀ i : Nat, i < 2 ^ 32 → i * 12 + 12 ≤ ix.size →
      ix.read ((i : Nat) : Int) =
        .ok (beDecode ((ix.mmap.drop (i * 12)).take 4),
          beDecode ((ix.mmap.drop (i * 12 + 4)).take 8))) := by
  refine ⟨?_, ?_, ?_, ?_⟩
  · intro h0 i
    unfold Index.read
    rw [if_pos h0]
  · intro h12 hbound
    exact Index.read_neg_one ix h12 hbound
  · intro i hi h0 hsz
    exact Index.read_out_of_range ix i hi h0 hsz
  · intro i hi hsz
    unfold Index.read
    rw [if_neg (by omega)]
    have hne : ((i : Nat) : Int) ≠ -1 := by omega
    rw [if_neg hne]
    have hcast : (((i : Nat) : Int) % ((2 : Int) ^ 32)).toNat = i % 2 ^ 32 := by
      have h := natCast_emod_toNat i (2 ^ 32)
      simpa using h
    rw [hcast, Nat.mod_eq_of_lt hi]
    rw [if_neg (by omega)]

/-- Witness for C4 at a concrete index: entry 0 holds `(0, 5)`, entry 1 is out
of range, the empty index fails, and `-1` resolves to entry 0. -/
theorem c4_index_read_spec_witness :
    Index.read ⟨u32be 0 ++ u64be 5 ++ List.replicate 12 0, 12⟩ ((0 : Nat) : Int) =
      .ok (0, 5) ∧
    Index.read ⟨u32be 0 ++ u64be 5 ++ List.replicate 12 0, 12⟩ ((1 : Nat) : Int) =
      .error .unexpectedEof ∧
    Index.read ⟨u32be 0 ++ u64be 5 ++ List.replicate 12 0, 0⟩ 3 =
      .error .unexpectedEof ∧
    Index.read ⟨u32be 0 ++ u64be 5 ++ List.replicate 12 0, 12⟩ (-1) =
      Index.read ⟨u32be 0 ++ u64be 5 ++ List.replicate 12 0, 12⟩ ((0 : Nat) : Int) := by
  refine ⟨?_, ?_, ?_, ?_⟩
  · have h := (c4_index_read_spec ⟨u32be 0 ++ u64be 5 ++ List.replicate 12 0, 12⟩).2.2.2
      0 (by decide) (by decide)
    rw [h]
    decide
  · exact (c4_index_read_spec ⟨u32be 0 ++ u64be 5 ++ List.replicate 12 0, 12⟩).2.2.1
      1 (by decide) (by decide) (by decide)
  · exact (c4_index_read_spec ⟨u32be 0 ++ u64be 5 ++ List.replicate 12 0, 0⟩).1 rfl 3
  · have h := (c4_index_read_spec ⟨u32be 0 ++ u64be 5 ++ List.replicate 12 0, 12⟩).2.1
      (by decide) (by decide)
    simpa using h

/-- Everything one successful `Index::write` guarantees: sizes, untouched
lower windows, and the bytes of the freshly written entry. -/
theorem Index.write_spec (ix : Index) (off pos : Nat) (ix' : Index)
    (h : ix.write off pos = .ok ix') :
    ix'.size = ix.size + 12 ∧ ix'.mmap.length = ix.mmap.length ∧
    ix.size + 12 ≤ ix.mmap.length ∧
    (∀ p t, p + t ≤ ix.size → (ix'.mmap.drop p).take t = (ix.mmap.drop p).take t) ∧
    (ix'.mmap.drop ix.size).take 4 = u32be off ∧
    (ix'.mmap.drop (ix.size + 4)).take 8 = u64be pos := by
  unfold Index.write at h
  by_cases hroom : ix.mmap.length < ix.size + 12
  · rw [if_pos hroom] at h
    cases h
  · rw [if_neg hroom] at h
    cases h
    have hlen12 : (u32be off ++ u64be pos).length = 12 := by
      simp [u32be_length, u64be_length]
    have hroom' : ix.size + 12 ≤ ix.mmap.length := by omega
    have hnew := writeAt_read_new ix.mmap (u32be off ++ u64be pos) ix.size
      (by omega)
    rw [hlen12] at hnew
    refine ⟨rfl, ?_, hroom', ?_, ?_, ?_⟩
    · exact writeAt_length ix.mmap (u32be off ++ u64be pos) ix.size
        (by rw [hlen12]; omega)
    · intro p t hpt
      exact writeAt_read_old ix.mmap (u32be off ++ u64be pos) ix.size p t hpt
        (by omega)
    · have h4 : (((writeAt ix.mmap ix.size (u32be off ++ u64be pos)).drop ix.size).take 12).take 4 =
          ((writeAt ix.mmap ix.size (u32be off ++ u64be pos)).drop ix.size).take 4 := by
        rw [List.take_take]
        norm_num
      rw [← h4, hnew, List.take_append_eq_append_take]
      have hl : (u32be off).length = 4 := u32be_length off
      have htk : (u32be off).take 4 = u32be off := by
        have h := List.take_length (u32be off)
        rwa [hl] at h
      rw [htk, hl]
      simp
    · have hdd : (writeAt ix.mmap ix.size (u32be off ++ u64be pos)).drop (ix.size + 4) =
          ((writeAt ix.mmap ix.size (u32be off ++ u64be pos)).drop ix.size).drop 4 := by
        rw [List.drop_drop]
      rw [hdd]
      have hsw : (((writeAt ix.mmap ix.size (u32be off ++ u64be pos)).drop ix.size).drop 4).take 8 =
          ((((writeAt ix.mmap ix.size (u32be off ++ u64be pos)).drop ix.size).take 12).drop 4) := by
        rw [List.drop_take]
      rw [hsw, hnew]
      exact drop_append_of_length_le _ _ 4 (u32be_length off).symm

/-- Everything a successful sequence of `Index::write`s guarantees: the final
size, the untouched prefix, and the bytes of every written entry. -/
theorem Index.writeSeq_spec (es : List (Nat × Nat)) (ix ixf : Index)
    (hw : ix.writeSeq es = .ok ixf) :
    ixf.size = ix.size + 12 * es.length ∧
    ixf.mmap.length = ix.mmap.length ∧
    (∀ p t, p + t ≤ ix.size → (ixf.mmap.drop p).take t = (ix.mmap.drop p).take t) ∧
    (∀ j, j < es.length →
      (ixf.mmap.drop (ix.size + 12 * j)).take 4 = u32be (es.getD j (0, 0)).1 ∧
      (ixf.mmap.drop (ix.size + 12 * j + 4)).take 8 = u64be (es.getD j (0, 0)).2) := by
  induction es generalizing ix with
  | nil =>
    cases hw
    exact ⟨by simp, rfl, fun p t _ => rfl, fun j hj => absurd hj (by simp)⟩
  | cons e rest ih =>
    unfold Index.writeSeq at hw
    cases hwr : ix.write e.1 e.2 with
    | error err => rw [hwr] at hw; cases hw
    | ok ix1 =>
      rw [hwr] at hw
      obtain ⟨hs1, hl1, hroom1, hold1, hoff1, hpos1⟩ :=
        Index.write_spec ix e.1 e.2 ix1 hwr
      obtain ⟨hs, hl, hold, hent⟩ := ih ix1 hw
      refine ⟨by rw [hs, hs1]; simp [List.length_cons]; ring, by rw [hl, hl1], ?_, ?_⟩
      · intro p t hpt
        rw [hold p t (by omega), hold1 p t hpt]
      · intro j hj
        cases j with
        | zero =>
          constructor
          · simp only [Nat.mul_zero, Nat.add_zero, List.getD_cons_zero]
            rw [hold ix.size 4 (by omega), hoff1]
          · simp only [Nat.mul_zero, Nat.add_zero, List.getD_cons_zero]
            rw [hold (ix.size + 4) 8 (by omega), hpos1]
        | succ j =>
          have hj' : j < rest.length := by
            simpa [List.length_cons] using hj
          have harith : ix.size + 12 * (j + 1) = ix1.size + 12 * j := by
            rw [hs1]; ring
          constructor
          · simp only [List.getD_cons_succ]
            rw [harith]
            exact (hent j hj').1
          · simp only [List.getD_cons_succ]
            have harith2 : ix.size + 12 * (j + 1) + 4 = ix1.size + 12 * j + 4 := by
              omega
            rw [harith2]
            exact (hent j hj').2

/-- C5 counterexample: on a fresh index (`max_index_bytes = 24`), the single
successful write `(1, 10)` is stored at entry position 0, so reading back with
`read(1)` fails with `unexpected-end-of-file` instead of returning `(1, 10)`:
`Index::read` addresses entries by position, not by stored relative offset. -/
theorem c5_counterexample :
    ((Index.fromFile ⟨32, 24, 0⟩ []).writeSeq [(1, 10)]).map (fun ix => ix.read 1) =
      .ok (.error .unexpectedEof) ∧
    ((Index.fromFile ⟨32, 24, 0⟩ []).writeSeq [(1, 10)]).map (fun ix => ix.read 1) ≠
      .ok (.ok (1, 10)) := by
  constructor
  · decide
  · decide

/-- C5 amended: starting from an empty index, when the i-th successful write
carries relative offset `i` (as `Segment::append` always does), `read(i)`
returns the written pair, and `read(-1)` returns the most recently written
pair. -/
theorem c5_amended_roundtrip (c : Config) (es : List (Nat × Nat)) (ixf : Index)
    (hlen : es.length < 2 ^ 32)
    (hoffs : ∀ i, i < es.length → (es.getD i (0, 0)).1 = i)
    (hpos : ∀ i, i < es.length → (es.getD i (0, 0)).2 < 2 ^ 64)
    (hw : (Index.fromFile c []).writeSeq es = .ok ixf) :
    (∀ i, i < es.length → ixf.read ((i : Nat) : Int) = .ok (i, (es.getD i (0, 0)).2)) ∧
    (es ≠ [] → ixf.read (-1) = .ok (es.length - 1, (es.getD (es.length - 1) (0, 0)).2)) := by
  obtain ⟨hs, hl, hold, hent⟩ := Index.writeSeq_spec es (Index.fromFile c []) ixf hw
  have hs0 : (Index.fromFile c []).size = 0 := rfl
  rw [hs0] at hs hent
  have hread : ∀ i, i < es.length →
      ixf.read ((i : Nat) : Int) = .ok (i, (es.getD i (0, 0)).2) := by
    intro i hi
    have h := hent i hi
    have hrd := Index.read_entry ixf i (es.getD i (0, 0)).1 (es.getD i (0, 0)).2
      (by omega) (by omega)
      (by have := h.1; rw [Nat.zero_add] at this; rw [Nat.mul_comm]; exact this)
      (by have := h.2; rw [Nat.zero_add] at this; rw [Nat.mul_comm]; exact this)
    rw [hrd, hoffs i hi, Nat.mod_eq_of_lt (by omega),
      Nat.mod_eq_of_lt (hpos i hi)]
  refine ⟨hread, ?_⟩
  intro hne
  have hple : 1 ≤ es.length := by
    cases es with
    | nil => exact absurd rfl hne
    | cons a l => simp
  have h12 : 12 ≤ ixf.size := by omega
  have hdiv : ixf.size / 12 = es.length := by
    rw [hs, Nat.zero_add, Nat.mul_div_cancel_left _ (by norm_num : 0 < 12)]
  rw [Index.read_neg_one ixf h12 (by omega), hdiv]
  exact hread (es.length - 1) (by omega)

/-- Witness for the amended C5: two sequential writes, read back. -/
theorem c5_amended_roundtrip_witness :
    c5Index.read ((1 : Nat) : Int) = .ok (1, 7) ∧
    c5Index.read (-1) = .ok (2 - 1, 7) := by
  have h := c5_amended_roundtrip ⟨32, 36, 0⟩ [(0, 5), (1, 7)] c5Index
    (by decide)
    (by intro i hi; have h2 : i < 2 := by simpa using hi
        interval_cases i <;> decide)
    (by intro i hi; have h2 : i < 2 := by simpa using hi
        interval_cases i <;> decide)
    (by decide)
  refine ⟨h.1 1 (by decide), ?_⟩
  have h2 := h.2 (by decide)
  simpa using h2

/-- C8 counterexample: a log with an empty segment list is reachable
(truncating a fresh log at 0 removes its only segment, whose `next_offset` is
0); on it, `lowest_offset` and `highest_offset` panic (out-of-bounds index and
`unwrap` on `None`, modelled as `none`) instead of returning the corrupt-log
error. -/
theorem c8_counterexample :
    ((Log.newEmpty ⟨32, 36, 0⟩).truncate 0).segments = [] ∧
    Log.lowestOffset ((Log.newEmpty ⟨32, 36, 0⟩).truncate 0) = none ∧
    Log.highestOffset ((Log.newEmpty ⟨32, 36, 0⟩).truncate 0) = none ∧
    Log.lowestOffset ((Log.newEmpty ⟨32, 36, 0⟩).truncate 0) ≠
      some (.error .corruptLog) ∧
    Log.highestOffset ((Log.newEmpty ⟨32, 36, 0⟩).truncate 0) ≠
      some (.error .corruptLog) := by
  refine ⟨by decide, by decide, by decide, by decide, by decide⟩

/-- C8 amended: the corrupt-log error is returned when the inspected slot
exists but has been consumed (`None`); on a genuinely empty segment list both
accessors panic (modelled as `none`) rather than returning the error. -/
theorem c8_amended_corrupt (l : Log) :
    (l.segments[0]? = some none → l.lowestOffset = some (.error .corruptLog)) ∧
    (l.segments.getLast? = some none → l.highestOffset = some (.error .corruptLog)) ∧
    (l.segments = [] → l.lowestOffset = none ∧ l.highestOffset = none) := by
  refine ⟨?_, ?_, ?_⟩
  · intro h
    simp [Log.lowestOffset, h]
  · intro h
    simp [Log.highestOffset, h]
  · intro h
    exact ⟨by simp [Log.lowestOffset, h], by simp [Log.highestOffset, h]⟩

/-- Witness for the amended C8 at a log whose only slot is consumed. -/
theorem c8_amended_corrupt_witness :
    Log.lowestOffset ⟨⟨1024, 1024, 0⟩, 0, [none], 0⟩ = some (.error .corruptLog) ∧
    Log.highestOffset ⟨⟨1024, 1024, 0⟩, 0, [none], 0⟩ = some (.error .corruptLog) :=
  ⟨(c8_amended_corrupt ⟨⟨1024, 1024, 0⟩, 0, [none], 0⟩).1 rfl,
   (c8_amended_corrupt ⟨⟨1024, 1024, 0⟩, 0, [none], 0⟩).2.1 rfl⟩

/-- C3 counterexample: with `max_index_bytes = 12`, the second append to a
fresh segment fails (index full) but still grows the store from 17 to 34
bytes, so a failing `Segment::append` does not leave all three quantities
unchanged. -/
theorem c3_counterexample :
    (((freshSegment ⟨1024, 12, 0⟩ 0).append ⟨[42], 0⟩).2.append ⟨[43], 0⟩).1 =
      .error .unexpectedEof ∧
    storeSizeOf (((freshSegment ⟨1024, 12, 0⟩ 0).append ⟨[42], 0⟩).2.append
      ⟨[43], 0⟩).2 = 34 ∧
    storeSizeOf ((freshSegment ⟨1024, 12, 0⟩ 0).append ⟨[42], 0⟩).2 = 17 := by
  refine ⟨by decide, by decide, by decide⟩

/-- C3 amended: a successful `Segment::append` increases the index entry
count, the store frame count and `next_offset - base_offset` each by exactly
one; a failing append (only the index write can fail, with
`unexpected-end-of-file`) leaves `next_offset` and the index unchanged while
the store still grows by the one orphan frame; `next_offset - base_offset`
always equals the number of index entries. -/
theorem c3_amended (s : Segment) (r : Record) (st : Store) (ix : Index)
    (hst : s.store = some st) (hix : s.index = some ix) :
    (∀ o, (s.append r).1 = .ok (some o) →
      (s.append r).2.next_offset = s.next_offset + 1 ∧
      indexSizeOf (s.append r).2 = ix.size + 12 ∧
      storeSizeOf (s.append r).2 = st.size + (16 + r.value.length)) ∧
    (∀ e, (s.append r).1 = .error e →
      e = .unexpectedEof ∧
      (s.append r).2.next_offset = s.next_offset ∧
      (s.append r).2.index = some ix ∧
      storeSizeOf (s.append r).2 = st.size + (16 + r.value.length)) ∧
    (s.base_offset ≤ s.next_offset →
      ix.size = 12 * (s.next_offset - s.base_offset) →
      indexSizeOf (s.append r).2 =
        12 * ((s.append r).2.next_offset - (s.append r).2.base_offset)) := by
  have hbuf : (encodeRecord { r with offset := s.next_offset }).length =
      8 + r.value.length := encodeRecord_length _
  simp only [Segment.append, hst, hix]
  cases hwr : ix.write (s.next_offset - s.base_offset)
      (st.append (encodeRecord { r with offset := s.next_offset })).2.2 with
  | error err =>
    have herr : err = .unexpectedEof := by
      unfold Index.write at hwr
      by_cases hroom : ix.mmap.length < ix.size + 12
      · rw [if_pos hroom] at hwr
        cases hwr
        rfl
      · rw [if_neg hroom] at hwr
        cases hwr
    refine ⟨?_, ?_, ?_⟩
    · intro o ho
      simp at ho
    · intro e he
      simp only [Except.error.injEq] at he
      subst he
      refine ⟨herr, rfl, rfl, ?_⟩
      simp [storeSizeOf, Store.append, hbuf]
      omega
    · intro hble hsz
      simp only [indexSizeOf, hix]
      simpa using hsz
  | ok ix1 =>
    obtain ⟨hs1, _, _, _, _, _⟩ := Index.write_spec ix _ _ ix1 hwr
    refine ⟨?_, ?_, ?_⟩
    · intro o ho
      refine ⟨rfl, ?_, ?_⟩
      · simp [indexSizeOf, hs1]
      · simp [storeSizeOf, Store.append, hbuf]
        omega
    · intro e he
      simp at he
    · intro hble hsz
      simp only [indexSizeOf, hs1, hsz]
      omega

/-- Witness for the amended C3: one successful append on a fresh segment. -/
theorem c3_amended_witness :
    ((freshSegment ⟨1024, 36, 0⟩ 0).append ⟨[42], 0⟩).2.next_offset =
      (freshSegment ⟨1024, 36, 0⟩ 0).next_offset + 1 ∧
    indexSizeOf ((freshSegment ⟨1024, 36, 0⟩ 0).append ⟨[42], 0⟩).2 =
      (Index.fromFile ⟨1024, 36, 0⟩ []).size + 12 ∧
    storeSizeOf ((freshSegment ⟨1024, 36, 0⟩ 0).append ⟨[42], 0⟩).2 =
      (Store.fromFile []).size + (16 + 1) :=
  (c3_amended (freshSegment ⟨1024, 36, 0⟩ 0) ⟨[42], 0⟩ (Store.fromFile [])
    (Index.fromFile ⟨1024, 36, 0⟩ []) rfl rfl).1 0 (by decide)

theorem getLast?_set_last {α : Type} (l : List α) (a : α) (h : l ≠ []) :
    (l.set (l.length - 1) a).getLast? = some a := by
  rw [List.getLast?_eq_getElem?]
  simp only [List.length_set]
  rw [List.getElem?_set_self']
  rw [List.getElem?_eq_getElem (by have := List.length_pos.mpr h; omega)]
  rfl

theorem freshSegment_next_offset (c : Config) (b : Nat) :
    (freshSegment c b).next_offset = b := by
  simp [freshSegment, segmentFromFiles, Index.fromFile, Index.read]

theorem freshSegment_base_offset (c : Config) (b : Nat) :
    (freshSegment c b).base_offset = b := rfl

/-- C10: on a log whose active segment's index is full while the segment is
still open, `Log::append` grows the store by one orphan frame and fails with
`unexpected-end-of-file`: no rollover happens, `next_offset` stays put, the
index (still full) is untouched, so the resulting log satisfies the same
hypotheses again and every subsequent append fails the same way. -/
theorem c10_append_on_full_index (l : Log) (r : Record) (seg : Segment)
    (st : Store) (ix : Index)
    (hseg : l.segments[l.active_segment]? = some (some seg))
    (hst : seg.store = some st) (hix : seg.index = some ix)
    (hfull : ix.mmap.length < ix.size + 12) :
    (l.append r).map Prod.fst = some (.error .unexpectedEof) ∧
    (l.append r).map (fun x => x.2.segments.length) = some l.segments.length ∧
    (l.append r).map (fun x => x.2.active_segment) = some l.active_segment ∧
    (l.append r).map (fun x => x.2.segments[l.active_segment]?) =
      some (some (some (orphanSegment seg st r))) ∧
    (orphanSegment seg st r).next_offset = seg.next_offset ∧
    (orphanSegment seg st r).index = some ix ∧
    storeSizeOf (orphanSegment seg st r) = st.size + (16 + r.value.length) := by
  obtain ⟨hlt, -⟩ := List.getElem?_eq_some.mp hseg
  have hwr : ix.write (seg.next_offset - seg.base_offset)
      (st.append (encodeRecord { r with offset := seg.next_offset })).2.2 =
      .error .unexpectedEof := by
    unfold Index.write
    rw [if_pos hfull]
  have happ : seg.append r = (.error .unexpectedEof, orphanSegment seg st r) := by
    simp only [Segment.append, hst, hix, hwr, orphanSegment]
  have hL : l.append r = some (.error .unexpectedEof,
      { l with segments :=
        l.segments.set l.active_segment (some (orphanSegment seg st r)) }) := by
    simp only [Log.append, hseg, happ]
  refine ⟨by rw [hL]; rfl, by rw [hL]; simp, by rw [hL]; rfl, ?_, by rfl, ?_, ?_⟩
  · rw [hL]
    have hget := List.getElem?_set_eq_of_lt
      (some (orphanSegment seg st r)) (l := l.segments) hlt
    simp only [Option.map, hget]
  · exact hix
  · simp only [orphanSegment, storeSizeOf, Store.append, encodeRecord_length]
    omega

/-- Witness for C10: a fresh log with `max_index_bytes = 20` after one append
has a full index (12 + 12 > 20) without ever having been maxed; the next
append fails with `unexpected-end-of-file`. -/
theorem c10_append_on_full_index_witness :
    (c10Log.append ⟨[9], 0⟩).map Prod.fst = some (.error .unexpectedEof) :=
  (c10_append_on_full_index c10Log ⟨[9], 0⟩
    ⟨some ⟨[0, 0, 0, 0, 0, 0, 0, 9, 0, 0, 0, 0, 0, 0, 0, 0, 7], 17, 0⟩,
     some ⟨List.replicate 20 0, 12⟩, 0, 1, ⟨1024, 20, 0⟩⟩
    ⟨[0, 0, 0, 0, 0, 0, 0, 9, 0, 0, 0, 0, 0, 0, 0, 0, 7], 17, 0⟩
    ⟨List.replicate 20 0, 12⟩
    (by decide) rfl rfl (by decide)).1

/-- What a successful `Segment::append` guarantees about the assigned offset
and the updated bookkeeping. -/
theorem Segment.append_ok_spec (s : Segment) (r : Record) (o : Nat)
    (h : (s.append r).1 = .ok (some o)) :
    o = s.next_offset ∧ (s.append r).2.next_offset = s.next_offset + 1 ∧
    (s.append r).2.base_offset = s.base_offset := by
  cases hst : s.store with
  | none =>
    cases hix : s.index with
    | none => simp only [Segment.append, hst, hix] at h; simp at h
    | some ix => simp only [Segment.append, hst, hix] at h; simp at h
  | some st =>
    cases hix : s.index with
    | none => simp only [Segment.append, hst, hix] at h; simp at h
    | some ix =>
      simp only [Segment.append, hst, hix] at h ⊢
      cases hwr : ix.write (s.next_offset - s.base_offset)
          (st.append (encodeRecord { r with offset := s.next_offset })).2.2 with
      | error e =>
        rw [hwr] at h
        simp at h
      | ok ix1 =>
        rw [hwr] at h
        refine ⟨?_, rfl, rfl⟩
        have h2 : s.next_offset = o := by simpa using h
        exact h2.symm

/-- C6: after a successful `Log::append` returning offset `o`,
`highest_offset` returns `o`; and when the append leaves the active segment
maxed, the new active (last) segment is a fresh segment with
`base_offset = next_offset = o + 1`. -/
theorem c6_highest_after_append (l : Log) (r : Record) (o : Nat) (l' : Log)
    (hA : l.active_segment = l.segments.length - 1)
    (h : l.append r = some (.ok (some o), l')) :
    l'.highestOffset = some (.ok o) ∧
    (∀ seg : Segment, l.segments[l.active_segment]? = some (some seg) →
      (seg.append r).2.is_maxed = true →
      l'.segments.getLast? = some (some (freshSegment l.config (o + 1))) ∧
      (freshSegment l.config (o + 1)).base_offset = o + 1 ∧
      (freshSegment l.config (o + 1)).next_offset = o + 1 ∧
      l'.active_segment = l'.segments.length - 1) := by
  cases hseg : l.segments[l.active_segment]? with
  | none =>
    have hL : l.append r = none := by simp only [Log.append, hseg]
    rw [hL] at h
    cases h
  | some oseg =>
    cases oseg with
    | none =>
      have hL : l.append r = some (.ok none, l) := by simp only [Log.append, hseg]
      rw [hL] at h
      simp at h
    | some seg =>
      obtain ⟨hlt, -⟩ := List.getElem?_eq_some.mp hseg
      have hne : l.segments ≠ [] :=
        List.ne_nil_of_length_pos (by omega)
      cases happ : seg.append r with
      | mk res seg' =>
        cases res with
        | error e =>
          have hL : l.append r = some (.error e,
              { l with segments := l.segments.set l.active_segment (some seg') }) := by
            simp only [Log.append, hseg, happ]
          rw [hL] at h
          simp at h
        | ok oo =>
          cases oo with
          | none =>
            have hL : l.append r = some (.ok none,
                { l with segments := l.segments.set l.active_segment (some seg') }) := by
              simp only [Log.append, hseg, happ]
            rw [hL] at h
            simp at h
          | some o0 =>
            have hspec := Segment.append_ok_spec seg r o0 (by rw [happ])
            rw [happ] at hspec
            by_cases hmx : seg'.is_maxed
            · have hL : l.append r = some (.ok (some o0), Log.pushSegment
                  { l with segments := l.segments.set l.active_segment (some seg') }
                  (o0 + 1)) := by
                simp only [Log.append, hseg, happ, hmx, if_true]
              rw [hL] at h
              simp only [Option.some.injEq, Prod.mk.injEq, Except.ok.injEq] at h
              obtain ⟨ho, hl'⟩ := h
              cases ho
              subst hl'
              have hlast : (Log.pushSegment
                  { l with segments := l.segments.set l.active_segment (some seg') }
                  (o + 1)).segments.getLast? =
                  some (some (freshSegment l.config (o + 1))) := by
                simp only [Log.pushSegment]
                exact List.getLast?_concat _
              constructor
              · simp only [Log.highestOffset, hlast, freshSegment_next_offset]
                rw [if_neg (by omega)]
                simp
              · intro seg0 hseg0 hmx0
                refine ⟨hlast, rfl, freshSegment_next_offset _ _, ?_⟩
                simp only [Log.pushSegment, List.length_append, List.length_set,
                  List.length_singleton]
                omega
            · have hmx2 : seg'.is_maxed = false := by
                simpa using hmx
              have hL : l.append r = some (.ok (some o0),
                  { l with segments := l.segments.set l.active_segment (some seg') }) := by
                simp [Log.append, hseg, happ, hmx2]
              rw [hL] at h
              simp only [Option.some.injEq, Prod.mk.injEq, Except.ok.injEq] at h
              obtain ⟨ho, hl'⟩ := h
              cases ho
              subst hl'
              have hlast : (l.segments.set l.active_segment (some seg')).getLast? =
                  some (some seg') := by
                rw [hA]
                exact getLast?_set_last l.segments (some seg') hne
              constructor
              · simp only [Log.highestOffset, hlast]
                rw [hspec.2.1]
                rw [if_neg (by omega)]
                simp only [Nat.add_sub_cancel]
                rw [← hspec.1]
              · intro seg0 hseg0 hmx0
                have hss : seg = seg0 := by simpa using hseg0
                subst hss
                rw [happ] at hmx0
                simp only at hmx0
                exact absurd hmx0 (by simp [hmx2])

/-- Witness for C6: one successful append on a fresh log assigns offset 0 and
`highest_offset` then returns 0. -/
theorem c6_highest_after_append_witness :
    Log.highestOffset c6Log = some (.ok 0) :=
  (c6_highest_after_append (Log.newEmpty ⟨32, 36, 0⟩) ⟨[1, 2], 0⟩ 0 c6Log
    (by decide) (by decide)).1

/-- C2, evaluated at the failing input: on a reachable log holding one record
in each of its first two segments (`max_store_bytes = 17` forces rollover
after every append), the first streaming read serves the first segment's raw
length-prefixed frame; the second read returns 0 with the cursor still at
segment 0 even though segment 1 still holds un-served store bytes.  The
`unexpected-end-of-file` branch that should advance the cursor is dead code:
the store's streaming read signals exhaustion with `Ok(0)`, not with that
error, so a whole pass never reaches the later segments. -/
theorem c2_streaming_stalls_between_segments :
    ((Log.newEmpty ⟨17, 1024, 0⟩).appendValues [[1], [2]]).isSome = true ∧
    c2Log.readStream 17 = .ok ((17, u64be 9 ++ u64be 0 ++ [1]), c2LogAfter) ∧
    c2LogAfter.reader_idx = 0 ∧
    3 ≤ c2LogAfter.segments.length ∧
    segSlotStoreData (c2LogAfter.segments.getD 1 none) = u64be 9 ++ u64be 1 ++ [2] ∧
    (c2LogAfter.readStream 17).map (fun x => (x.1, x.2.reader_idx)) =
      .ok ((0, []), 0) := by
  exact ⟨by decide, by decide, by decide, by decide, by decide, by decide⟩

theorem filterMap_truncate (segs : List Segment) (lowest : Nat) :
    segs.filterMap (fun s =>
        if s.next_offset ≤ lowest + 1 then none else some (some s)) =
      (segs.filter (fun s => decide (lowest + 1 < s.next_offset))).map some := by
  induction segs with
  | nil => rfl
  | cons s rest ih =>
    by_cases h : s.next_offset ≤ lowest + 1
    · rw [List.filterMap_cons, List.filter_cons]
      have hf : decide (lowest + 1 < s.next_offset) = false := by
        simp [Nat.not_lt.mpr h]
      rw [if_pos h, hf]
      simpa using ih
    · rw [List.filterMap_cons, List.filter_cons]
      have ht : decide (lowest + 1 < s.next_offset) = true := by
        simpa using Nat.lt_of_not_le h
      rw [if_neg h, ht]
      simp [ih]

/-- C7: `Log::truncate(lowest)` removes exactly the segments with
`next_offset ≤ lowest + 1`, keeps the others in their original order, resets
the streaming cursor to 0, and afterwards `read_at_offset(j)` fails with the
offset-out-of-range error for every `j ≤ lowest` that lay in a removed
segment.  The hypotheses say the segment ranges are well formed and pairwise
disjoint, as they are in every reachable log. -/
theorem c7_truncate_spec (l : Log) (segs : List Segment) (lowest : Nat)
    (hsegs : l.segments = segs.map some)
    (hdisj : ∀ a ∈ segs, ∀ b ∈ segs,
      a.next_offset ≤ b.base_offset ∨ b.next_offset ≤ a.base_offset ∨ a = b) :
    (l.truncate lowest).segments =
      (segs.filter (fun s => decide (lowest + 1 < s.next_offset))).map some ∧
    (l.truncate lowest).reader_idx = 0 ∧
    (∀ j, j ≤ lowest →
      (∃ s ∈ segs, s.next_offset ≤ lowest + 1 ∧
        s.base_offset ≤ j ∧ j < s.next_offset) →
      (l.truncate lowest).read_at_offset j = .error (.offsetOutOfRange j)) := by
  have htr : (l.truncate lowest).segments =
      (segs.filter (fun s => decide (lowest + 1 < s.next_offset))).map some := by
    simp only [Log.truncate, hsegs, List.filterMap_map]
    rw [← filterMap_truncate segs lowest]
    rfl
  refine ⟨htr, rfl, ?_⟩
  intro j hj hrem
  obtain ⟨m, hm, hmrem, hmb, hmn⟩ := hrem
  unfold Log.read_at_offset
  rw [htr]
  have hfind : (((segs.filter
      (fun s => decide (lowest + 1 < s.next_offset))).map some).find? (fun os =>
        match os with
        | some s => decide (s.base_offset ≤ j) && decide (j < s.next_offset)
        | none => false)) = none := by
    rw [List.find?_eq_none]
    intro os hos
    obtain ⟨s, hsmem, rfl⟩ := List.mem_map.mp hos
    have hsf := List.mem_filter.mp hsmem
    have hkeep : lowest + 1 < s.next_offset := by
      have := hsf.2
      simpa using this
    rcases hdisj s hsf.1 m hm with hcase | hcase | hcase
    · have hnot : ¬(j < s.next_offset) := by omega
      simp [hnot]
    · have hnot : ¬(s.base_offset ≤ j) := by omega
      simp [hnot]
    · subst hcase
      omega
  rw [hfind]

theorem drop_take_take (l : List Nat) (s p t : Nat) (h : p + t ≤ s) :
    ((l.take s).drop p).take t = (l.drop p).take t := by
  rw [List.drop_take, List.take_take]
  congr 1
  omega

/-- Reading only the offset field of an index entry. -/
theorem Index.read_entry_fst (ix : Index) (j a : Nat)
    (hj : j < 2 ^ 32) (hsz : j * 12 + 12 ≤ ix.size)
    (ha : (ix.mmap.drop (j * 12)).take 4 = u32be a) :
    ix.read ((j : Nat) : Int) =
      .ok (a % 2 ^ 32, beDecode ((ix.mmap.drop (j * 12 + 4)).take 8)) := by
  unfold Index.read
  rw [if_neg (by omega)]
  have hne : ((j : Nat) : Int) ≠ -1 := by omega
  rw [if_neg hne]
  have hcast : (((j : Nat) : Int) % ((2 : Int) ^ 32)).toNat = j % 2 ^ 32 := by
    have h := natCast_emod_toNat j (2 ^ 32)
    simpa using h
  rw [hcast, Nat.mod_eq_of_lt hj]
  rw [if_neg (by omega)]
  rw [ha, beDecode_u32be]

/-- Rebuilding a well-formed segment from its closed files recovers
`next_offset` (the second half of C9). -/
theorem reopen_segment_next (c : Config) (s : Segment) (st : Store) (ix : Index)
    (hst : s.store = some st) (hix : s.index = some ix)
    (hsz : ix.size = 12 * (s.next_offset - s.base_offset))
    (hble : s.base_offset ≤ s.next_offset)
    (hmm : ix.size ≤ ix.mmap.length)
    (hcap : ix.size ≤ c.max_index_bytes)
    (hlt : s.next_offset - s.base_offset < 2 ^ 32)
    (hlast : s.next_offset = s.base_offset ∨
      (ix.mmap.drop (ix.size - 12)).take 4 =
        u32be (s.next_offset - s.base_offset - 1)) :
    (segmentFromFiles c s.base_offset st.data ix.closedFile).next_offset =
      s.next_offset := by
  have hfile_len : (ix.closedFile).length = ix.size := by
    simp only [Index.closedFile, List.length_take]
    omega
  have hsize2 : (Index.fromFile c ix.closedFile).size = ix.size := by
    simp [Index.fromFile, hfile_len]
  by_cases h0 : s.next_offset - s.base_offset = 0
  · have hz : ix.size = 0 := by omega
    have hrd : (Index.fromFile c ix.closedFile).read (-1) =
        .error .unexpectedEof := by
      unfold Index.read
      rw [if_pos (by rw [hsize2, hz])]
    simp only [segmentFromFiles, hrd]
    omega
  · have h12 : 12 ≤ ix.size := by omega
    have hmm2 : ∀ p t, p + t ≤ ix.size →
        ((Index.fromFile c ix.closedFile).mmap.drop p).take t =
          (ix.mmap.drop p).take t := by
      intro p t hpt
      have hf : (ix.mmap.take ix.size).take c.max_index_bytes =
          ix.mmap.take ix.size := by
        rw [List.take_take]
        congr 1
        omega
      have hflen : (ix.mmap.take ix.size).length = ix.size := by
        rw [List.length_take]
        omega
      simp only [Index.fromFile, toSize, Index.closedFile, hf]
      rw [drop_take_append_left _ _ p t (by rw [hflen]; omega)]
      exact drop_take_take ix.mmap ix.size p t hpt
    have hoff : (((Index.fromFile c ix.closedFile).mmap.drop
        ((s.next_offset - s.base_offset - 1) * 12)).take 4) =
        u32be (s.next_offset - s.base_offset - 1) := by
      rw [hmm2 _ 4 (by omega)]
      rcases hlast with he | hl
      · omega
      · have harith : (s.next_offset - s.base_offset - 1) * 12 = ix.size - 12 := by
          omega
        rw [harith]
        exact hl
    have h1 := Index.read_neg_one (Index.fromFile c ix.closedFile)
      (by omega) (by rw [hsize2, hsz]; rw [Nat.mul_div_cancel_left _ (by norm_num : 0 < 12)]; omega)
    have hdiv : (Index.fromFile c ix.closedFile).size / 12 - 1 =
        s.next_offset - s.base_offset - 1 := by
      rw [hsize2, hsz, Nat.mul_div_cancel_left _ (by norm_num : 0 < 12)]
    rw [hdiv] at h1
    have h2 := Index.read_entry_fst (Index.fromFile c ix.closedFile)
      (s.next_offset - s.base_offset - 1) (s.next_offset - s.base_offset - 1)
      (by omega) (by omega) hoff
    have hrd := h1.trans h2
    have hmod : (s.next_offset - s.base_offset - 1) % 2 ^ 32 =
        s.next_offset - s.base_offset - 1 := Nat.mod_eq_of_lt (by omega)
    rw [hmod] at hrd
    simp only [segmentFromFiles, hrd]
    have hfin : s.base_offset + (s.next_offset - s.base_offset - 1) + 1 =
        s.next_offset := by
      omega
    exact hfin

theorem segReopenOK_unpack (c : Config) (s : Segment)
    (h : segReopenOK c s = true) :
    ∃ st ix, s.store = some st ∧ s.index = some ix ∧
      ix.size = 12 * (s.next_offset - s.base_offset) ∧
      s.base_offset ≤ s.next_offset ∧ ix.size ≤ ix.mmap.length ∧
      ix.size ≤ c.max_index_bytes ∧ s.next_offset - s.base_offset < 2 ^ 32 ∧
      (s.next_offset = s.base_offset ∨
        (ix.mmap.drop (ix.size - 12)).take 4 =
          u32be (s.next_offset - s.base_offset - 1)) := by
  cases hst : s.store with
  | none => simp [segReopenOK, hst] at h
  | some st =>
    cases hix : s.index with
    | none => simp [segReopenOK, hst, hix] at h
    | some ix =>
      simp only [segReopenOK, hst, hix, Bool.and_eq_true, Bool.or_eq_true,
        decide_eq_true_eq] at h
      obtain ⟨⟨⟨⟨⟨h1, h2⟩, h3⟩, h4⟩, h5⟩, h6⟩ := h
      exact ⟨st, ix, rfl, rfl, h1, h2, h3, h4, h5, h6⟩

/-- C9: closing a log and reopening the same directory with the same
configuration preserves `lowest_offset` and `highest_offset`; and
`Segment::new` derives `next_offset` as `base + last_relative_offset + 1`
when `Index::read(-1)` succeeds and as `base` when it fails (empty index).
Hypotheses: every slot holds an open segment whose index is well formed, as
after any sequence of successful appends. -/
theorem c9_reopen_preserves_offsets (l : Log) (segs : List Segment)
    (hsegs : l.segments = segs.map some) (hne : segs ≠ [])
    (hwf : ∀ s ∈ segs, segReopenOK l.config.normalize s = true) :
    (reopenLog l.config segs).lowestOffset = l.lowestOffset ∧
    (reopenLog l.config segs).highestOffset = l.highestOffset ∧
    (∀ base storeF indexF,
      (segmentFromFiles l.config.normalize base storeF indexF).next_offset =
        match (Index.fromFile l.config.normalize indexF).read (-1) with
        | .ok e => base + e.1 + 1
        | .error _ => base) := by
  have hmapnext : ∀ s ∈ segs,
      (segmentFromFiles l.config.normalize s.base_offset
        (match s.store with | some st => st.data | none => [])
        (match s.index with | some ix => ix.closedFile | none => [])).next_offset =
        s.next_offset := by
    intro s hs
    obtain ⟨st, ix, hst, hix, h1, h2, h3, h4, h5, h6⟩ :=
      segReopenOK_unpack l.config.normalize s (hwf s hs)
    rw [hst, hix]
    exact reopen_segment_next l.config.normalize s st ix hst hix h1 h2 h3 h4 h5 h6
  refine ⟨?_, ?_, ?_⟩
  · obtain ⟨s0, hs0⟩ : ∃ s0, segs[0]? = some s0 := by
      cases h : segs[0]? with
      | none =>
        rw [List.getElem?_eq_none_iff] at h
        have := List.length_pos.mpr hne
        omega
      | some s => exact ⟨s, rfl⟩
    simp only [reopenLog, Log.lowestOffset, Log.highestOffset, hsegs,
      List.getElem?_map, hs0]
    rfl
  · obtain ⟨sl, hsl⟩ : ∃ sl, segs.getLast? = some sl := by
      cases h : segs.getLast? with
      | none => exact absurd (List.getLast?_eq_none_iff.mp h) hne
      | some s => exact ⟨s, rfl⟩
    have hslmem : sl ∈ segs := List.mem_of_mem_getLast? hsl
    have hnext := hmapnext sl hslmem
    simp only [reopenLog, Log.highestOffset, hsegs, List.getLast?_map, hsl]
    simp only [Option.map]
    rw [hnext]
  · intro base sF iF
    cases h : (Index.fromFile l.config.normalize iF).read (-1) with
    | ok e =>
      obtain ⟨off, p⟩ := e
      simp [segmentFromFiles, h]
    | error err => simp [segmentFromFiles, h]

theorem frameBytes_length (v : List Nat) (o : Nat) :
    (frameBytes v o).length = 16 + v.length := by
  simp [frameBytes, u64be_length]
  omega

theorem segData_succ (vs : List (List Nat)) (init base k : Nat) :
    segData vs init base (k + 1) = segData vs init base k ++
      frameBytes (vs.getD (base - init + k) []) (base + k) := rfl

theorem segData_length_mono (vs : List (List Nat)) (init base : Nat)
    {j k : Nat} (h : j ≤ k) :
    (segData vs init base j).length ≤ (segData vs init base k).length := by
  induction k with
  | zero =>
    cases Nat.le_zero.mp h
    exact le_refl _
  | succ k ih =>
    rcases Nat.lt_or_ge j (k + 1) with hj | hj
    · have := ih (by omega)
      rw [segData_succ]
      simp only [List.length_append]
      omega
    · have hje : j = k + 1 := by omega
      subst hje
      exact le_refl _

theorem segData_split (vs : List (List Nat)) (init base : Nat) {j k : Nat}
    (h : j < k) :
    ∃ suf, segData vs init base k =
      segData vs init base j ++
        (frameBytes (vs.getD (base - init + j) []) (base + j) ++ suf) := by
  induction k with
  | zero => omega
  | succ k ih =>
    rcases Nat.lt_or_ge j k with hj | hj
    · obtain ⟨suf, hsuf⟩ := ih hj
      refine ⟨suf ++ frameBytes (vs.getD (base - init + k) []) (base + k), ?_⟩
      rw [segData_succ, hsuf]
      simp [List.append_assoc]
    · have hje : j = k := by omega
      subst hje
      exact ⟨[], by rw [segData_succ]; simp⟩

theorem segData_congr_append (vs : List (List Nat)) (v : List Nat)
    (init base : Nat) (k : Nat) (h : base - init + k ≤ vs.length) :
    segData (vs ++ [v]) init base k = segData vs init base k := by
  induction k with
  | zero => rfl
  | succ k ih =>
    rw [segData_succ, segData_succ, ih (by omega)]
    congr 2
    exact List.getD_append vs [v] [] (base - init + k) (by omega)

theorem totalBytes_append (vs ws : List (List Nat)) :
    totalBytes (vs ++ ws) = totalBytes vs + totalBytes ws := by
  simp [totalBytes]

theorem totalBytes_take_le (vs : List (List Nat)) (n : Nat) :
    totalBytes (vs.take n) ≤ totalBytes vs := by
  conv_rhs => rw [← List.take_append_drop n vs]
  rw [totalBytes_append]
  omega

theorem segData_length_le (vs : List (List Nat)) (init base k : Nat)
    (h : base - init + k ≤ vs.length) :
    (segData vs init base k).length ≤ totalBytes vs := by
  have key : ∀ k, base - init + k ≤ vs.length →
      (segData vs init base k).length ≤ totalBytes (vs.take (base - init + k)) := by
    intro k0
    induction k0 with
    | zero => intro h0; simp [segData]
    | succ k0 ih =>
      intro h0
      rw [segData_succ]
      simp only [List.length_append, frameBytes_length]
      have h1 := ih (by omega)
      have h2 : vs.take (base - init + (k0 + 1)) =
          vs.take (base - init + k0) ++ (vs[base - init + k0]?).toList := by
        have hts := List.take_succ (l := vs) (n := base - init + k0)
        rw [← hts]
        rfl
      have h3 : vs[base - init + k0]? = some (vs.getD (base - init + k0) []) := by
        have hx := List.getElem?_eq_getElem
          (l := vs) (by omega : base - init + k0 < vs.length)
        rw [hx, List.getD_eq_getElem?_getD, hx]
        rfl
      rw [h2, totalBytes_append, h3]
      simp only [Option.toList_some, totalBytes, List.map_cons, List.map_nil,
        List.sum_cons, List.sum_nil]
      simp only [totalBytes] at h1
      omega
  exact le_trans (key k h) (totalBytes_take_le vs _)

theorem take_append_exact (a b : List Nat) (n : Nat) (h : a.length = n) :
    (a ++ b).take n = a := by
  rw [List.take_append_eq_append_take]
  have h1 : a.take n = a := by
    rw [← h]
    exact List.take_length a
  rw [h1, h]
  simp

theorem value_length_le_totalBytes (vs : List (List Nat)) (i : Nat)
    (h : i < vs.length) : 16 + (vs.getD i []).length ≤ totalBytes vs := by
  have hget : vs.getD i [] = vs[i] := by
    rw [List.getD_eq_getElem?_getD, List.getElem?_eq_getElem h]
    rfl
  have hmem : vs.getD i [] ∈ vs := by
    rw [hget]
    exact List.getElem_mem h
  have hmemf : 16 + (vs.getD i [] : List Nat).length ∈
      vs.map (fun v => 16 + v.length) :=
    List.mem_map_of_mem _ hmem
  exact List.single_le_sum (fun x _ => Nat.zero_le x) _ hmemf

/-- `Segment::read_at_offset` on a well-formed segment returns the record
appended at absolute offset `o`: its value is `vs[o - init]`. -/
theorem SegOK_read (c : Config) (init : Nat) (vs : List (List Nat))
    (s : Segment) (hok : SegOK c init vs s) (o : Nat)
    (hlo : s.base_offset ≤ o) (hhi : o < s.next_offset)
    (hcount : vs.length < 2 ^ 32) (hbytes : totalBytes vs < 2 ^ 64) :
    extractValue (s.read_at_offset o) = some (vs.getD (o - init) []) := by
  obtain ⟨st, ix, hst, hix, hcfg, hinit, hble, hnextle, hsz, hmmlen, hdata,
    hssz, hent⟩ := hok
  have hjk : o - s.base_offset < s.next_offset - s.base_offset := by omega
  have hidx : s.base_offset - init + (o - s.base_offset) = o - init := by omega
  have hrd := Index.read_entry ix (o - s.base_offset) (o - s.base_offset)
    ((segData vs init s.base_offset (o - s.base_offset)).length)
    (by omega) (by omega) (hent _ hjk).1 (hent _ hjk).2
  have hPle : (segData vs init s.base_offset (o - s.base_offset)).length ≤
      totalBytes vs :=
    segData_length_le vs init s.base_offset _ (by omega)
  have hmod1 : (o - s.base_offset) % 2 ^ 32 = o - s.base_offset :=
    Nat.mod_eq_of_lt (by omega)
  have hmod2 : (segData vs init s.base_offset (o - s.base_offset)).length %
      2 ^ 64 = (segData vs init s.base_offset (o - s.base_offset)).length :=
    Nat.mod_eq_of_lt (by omega)
  rw [hmod1, hmod2] at hrd
  obtain ⟨suf, hsplit⟩ := segData_split vs init s.base_offset hjk
  rw [hidx] at hsplit
  have hflen8 : (u64be (8 + (vs.getD (o - init) []).length)).length = 8 :=
    u64be_length _
  have hvle : 16 + (vs.getD (o - init) []).length ≤ totalBytes vs :=
    value_length_le_totalBytes vs (o - init) (by omega)
  have hreassoc : frameBytes (vs.getD (o - init) [])
      (s.base_offset + (o - s.base_offset)) ++ suf =
      u64be (8 + (vs.getD (o - init) []).length) ++
        ((u64be (s.base_offset + (o - s.base_offset)) ++ vs.getD (o - init) []) ++
          suf) := by
    simp [frameBytes, List.append_assoc]
  have hdropP : st.data.drop
      (segData vs init s.base_offset (o - s.base_offset)).length =
      frameBytes (vs.getD (o - init) [])
        (s.base_offset + (o - s.base_offset)) ++ suf := by
    rw [hdata, hsplit]
    exact drop_append_of_length_le _ _ _ rfl
  have hdlen : st.data.length =
      (segData vs init s.base_offset (o - s.base_offset)).length +
        (16 + (vs.getD (o - init) []).length) + suf.length := by
    rw [hdata, hsplit]
    simp only [List.length_append, frameBytes_length]
    ring
  have hsr : st.read_at_offset
      (segData vs init s.base_offset (o - s.base_offset)).length =
      .ok (u64be (s.base_offset + (o - s.base_offset)) ++ vs.getD (o - init) []) := by
    unfold Store.read_at_offset
    rw [hdropP, hreassoc]
    rw [take_append_exact _ _ 8 hflen8]
    rw [padTo_of_length_eq 8 _ hflen8, beDecode_u64be]
    rw [Nat.mod_eq_of_lt (by omega : 8 + (vs.getD (o - init) []).length < 2 ^ 64)]
    rw [if_neg (by omega)]
    have hdrop8 : st.data.drop
        ((segData vs init s.base_offset (o - s.base_offset)).length + 8) =
        (u64be (s.base_offset + (o - s.base_offset)) ++ vs.getD (o - init) []) ++
          suf := by
      have h1 : st.data.drop
          ((segData vs init s.base_offset (o - s.base_offset)).length + 8) =
          (st.data.drop
            (segData vs init s.base_offset (o - s.base_offset)).length).drop 8 := by
        rw [List.drop_drop]
      rw [h1, hdropP, hreassoc]
      exact drop_append_of_length_le _ _ 8 hflen8.symm
    rw [hdrop8, take_append_exact _ _ (8 + (vs.getD (o - init) []).length)
      (by simp [u64be_length])]
  have hdec : decodeRecord
      (u64be (s.base_offset + (o - s.base_offset)) ++ vs.getD (o - init) []) =
      .ok ⟨vs.getD (o - init) [],
        (s.base_offset + (o - s.base_offset)) % 2 ^ 64⟩ :=
    decodeRecord_encodeRecord
      ⟨vs.getD (o - init) [], s.base_offset + (o - s.base_offset)⟩
  simp only [Segment.read_at_offset, hst, hix, hrd, hsr, hdec, extractValue]

theorem SegChain.mem_ok {c : Config} {init : Nat} {vs : List (List Nat)}
    {start : Nat} {segs : List Segment} {e : Nat}
    (hch : SegChain c init vs start segs e) :
    ∀ s ∈ segs, SegOK c init vs s := by
  induction hch with
  | nil e => intro s hs; cases hs
  | cons s rest e hok hch ih =>
    intro x hx
    rcases List.mem_cons.mp hx with hx | hx
    · subst hx; exact hok
    · exact ih x hx

theorem SegChain.last_next {c : Config} {init : Nat} {vs : List (List Nat)}
    {start : Nat} {segs : List Segment} {e : Nat}
    (hch : SegChain c init vs start segs e) :
    ∀ sl, segs.getLast? = some sl → sl.next_offset = e := by
  induction hch with
  | nil e => intro sl h; cases h
  | cons s rest e hok hch ih =>
    intro sl h
    cases rest with
    | nil =>
      simp only [List.getLast?_singleton, Option.some.injEq] at h
      have hse : s.next_offset = e := by
        generalize hgen : s.next_offset = n at hch
        cases hch
        rfl
      rw [← h]
      exact hse
    | cons t ts =>
      rw [List.getLast?_cons_cons] at h
      exact ih sl h

theorem SegOK_extend (c : Config) (init : Nat) (vs : List (List Nat))
    (v : List Nat) (s : Segment) (hok : SegOK c init vs s) :
    SegOK c init (vs ++ [v]) s := by
  obtain ⟨st, ix, hst, hix, hcfg, hinit, hble, hnextle, hsz, hmm, hdata,
    hssz, hent⟩ := hok
  refine ⟨st, ix, hst, hix, hcfg, hinit, hble, ?_, hsz, hmm, ?_, hssz, ?_⟩
  · simp only [List.length_append, List.length_singleton]
    omega
  · rw [hdata, segData_congr_append _ _ _ _ _ (by omega)]
  · intro j hj
    refine ⟨(hent j hj).1, ?_⟩
    rw [segData_congr_append _ _ _ _ _ (by omega)]
    exact (hent j hj).2

theorem SegChain.extend {c : Config} {init : Nat} {vs : List (List Nat)}
    {start : Nat} {segs : List Segment} {e : Nat} (v : List Nat)
    (hch : SegChain c init vs start segs e) :
    SegChain c init (vs ++ [v]) start segs e := by
  induction hch with
  | nil e => exact SegChain.nil e
  | cons s rest e hok hch ih =>
    exact SegChain.cons s rest e (SegOK_extend c init vs v s hok) ih

theorem SegChain.set_last {c : Config} {init : Nat} {vs : List (List Nat)}
    {start : Nat} {segs : List Segment} {e : Nat}
    (hch : SegChain c init vs start segs e) :
    ∀ s' sl, segs.getLast? = some sl → s'.base_offset = sl.base_offset →
    SegOK c init vs s' →
    SegChain c init vs start (segs.set (segs.length - 1) s')
      s'.next_offset := by
  induction hch with
  | nil e => intro s' sl h; cases h
  | cons s rest e hok hch ih =>
    intro s' sl hlast hbase hok'
    cases rest with
    | nil =>
      simp only [List.getLast?_singleton, Option.some.injEq] at hlast
      subst hlast
      show SegChain c init vs s.base_offset [s'] s'.next_offset
      rw [← hbase]
      exact SegChain.cons s' [] _ hok' (SegChain.nil _)
    | cons t ts =>
      rw [List.getLast?_cons_cons] at hlast
      have hset : ((s :: t :: ts).set ((s :: t :: ts).length - 1) s') =
          s :: ((t :: ts).set ((t :: ts).length - 1) s') := by
        simp only [List.length_cons, Nat.add_sub_cancel]
        rfl
      rw [hset]
      exact SegChain.cons s _ _ hok (ih s' sl hlast hbase hok')

theorem SegChain.snoc {c : Config} {init : Nat} {vs : List (List Nat)}
    {start : Nat} {segs : List Segment} {e : Nat}
    (hch : SegChain c init vs start segs e) :
    ∀ s' : Segment, s'.base_offset = e → SegOK c init vs s' →
    SegChain c init vs start (segs ++ [s']) s'.next_offset := by
  induction hch with
  | nil e =>
    intro s' hb hok'
    rw [List.nil_append, ← hb]
    exact SegChain.cons s' [] _ hok' (SegChain.nil _)
  | cons s rest e hok hch ih =>
    intro s' hb hok'
    rw [List.cons_append]
    exact SegChain.cons s _ _ hok (ih s' hb hok')

theorem SegChain.find_covering {c : Config} {init : Nat} {vs : List (List Nat)}
    {start : Nat} {segs : List Segment} {e : Nat}
    (hch : SegChain c init vs start segs e) :
    ∀ o, start ≤ o → o < e →
    ∃ s, ((segs.map some).find? (fun os =>
      match os with
      | some s => decide (s.base_offset ≤ o) && decide (o < s.next_offset)
      | none => false)) = some (some s) ∧
      SegOK c init vs s ∧ s.base_offset ≤ o ∧ o < s.next_offset := by
  induction hch with
  | nil e => intro o h1 h2; omega
  | cons s rest e hok hch ih =>
    intro o h1 h2
    by_cases hos : o < s.next_offset
    · refine ⟨s, ?_, hok, h1, hos⟩
      rw [List.map_cons]
      exact List.find?_cons_of_pos _ (by simp [h1, hos])
    · have hnle : s.next_offset ≤ o := by omega
      obtain ⟨t, hfind, htok, htlo, hthi⟩ := ih o hnle h2
      refine ⟨t, ?_, htok, htlo, hthi⟩
      rw [List.map_cons]
      rw [List.find?_cons_of_neg _ (by simp [hos])]
      exact hfind

theorem freshSegment_SegOK (c : Config) (init : Nat) (vs : List (List Nat))
    (b : Nat) (hb : b = init + vs.length) :
    SegOK c init vs (freshSegment c b) := by
  refine ⟨Store.fromFile [], Index.fromFile c [], rfl, rfl, rfl, ?_, ?_, ?_,
    ?_, ?_, ?_, rfl, ?_⟩
  · rw [freshSegment_base_offset]; omega
  · rw [freshSegment_base_offset, freshSegment_next_offset]
  · rw [freshSegment_next_offset]; omega
  · rw [freshSegment_base_offset, freshSegment_next_offset]
    simp [Index.fromFile]
  · simp [Index.fromFile, toSize_length]
  · rw [freshSegment_base_offset, freshSegment_next_offset]
    simp [Store.fromFile, segData]
  · intro j hj
    rw [freshSegment_base_offset, freshSegment_next_offset] at hj
    omega

/-- The segment produced by a successful `Segment::append` of value `v` to
the active segment (the one whose `next_offset` is the global next offset)
satisfies the invariant for the extended value list. -/
theorem SegOK_after_append (c : Config) (init : Nat) (vs : List (List Nat))
    (sl : Segment) (v : List Nat) (st : Store) (ix ix1 : Index)
    (hst : sl.store = some st) (hix : sl.index = some ix)
    (hok : SegOK c init vs sl)
    (hnext : sl.next_offset = init + vs.length)
    (hwr : ix.write (sl.next_offset - sl.base_offset)
      (st.append (encodeRecord { value := v, offset := sl.next_offset })).2.2 =
      .ok ix1) :
    SegOK c init (vs ++ [v])
      { sl with
        store := some (st.append
          (encodeRecord { value := v, offset := sl.next_offset })).1,
        index := some ix1,
        next_offset := sl.next_offset + 1 } := by
  obtain ⟨st0, ix0, hst0, hix0, hcfg, hinit, hble, hnextle, hsz, hmm, hdata,
    hssz, hent⟩ := hok
  have hsteq : st0 = st := Option.some.inj (hst0.symm.trans hst)
  have hixeq : ix0 = ix := Option.some.inj (hix0.symm.trans hix)
  subst hsteq
  subst hixeq
  obtain ⟨hs1, hl1, hroom, hold, hoff, hpos⟩ := Index.write_spec ix0 _ _ ix1 hwr
  have hkk : sl.next_offset + 1 - sl.base_offset =
      (sl.next_offset - sl.base_offset) + 1 := by omega
  have hidxlen : sl.base_offset - init + (sl.next_offset - sl.base_offset) =
      vs.length := by omega
  unfold SegOK
  dsimp only
  refine ⟨_, ix1, rfl, rfl, hcfg, hinit, by omega, ?_, ?_, ?_, ?_, ?_, ?_⟩
  · simp only [List.length_append, List.length_singleton]
    omega
  · simp only [hs1, hsz, hkk]
    ring
  · rw [hl1, hmm]
  · -- the store bytes are the frames of the extended run
    rw [hkk, segData_succ]
    rw [segData_congr_append _ _ _ _ _ (by omega)]
    have hgetD : (vs ++ [v]).getD
        (sl.base_offset - init + (sl.next_offset - sl.base_offset)) [] = v := by
      rw [hidxlen]
      simp [List.getD]
    rw [hgetD]
    simp only [Store.append]
    rw [hdata, encodeRecord_length]
    have harith : sl.base_offset + (sl.next_offset - sl.base_offset) =
        sl.next_offset := by omega
    rw [frameBytes, harith]
    simp [encodeRecord]
  · -- logical size equals data length
    simp only [Store.append, List.length_append, u64be_length]
    rw [hssz, hdata]
    simp [encodeRecord_length, List.length_append, u64be_length]
    omega
  · intro j hj
    rw [hkk] at hj
    rcases Nat.lt_or_ge j (sl.next_offset - sl.base_offset) with hjlt | hjge
    · -- old entries are untouched
      have h1 := hold (j * 12) 4 (by omega)
      have h2 := hold (j * 12 + 4) 8 (by omega)
      refine ⟨?_, ?_⟩
      · rw [h1]
        exact (hent j hjlt).1
      · rw [h2, segData_congr_append _ _ _ _ _ (by omega)]
        exact (hent j hjlt).2
    · -- the new entry
      have hje : j = sl.next_offset - sl.base_offset := by omega
      have hjsz : j * 12 = ix0.size := by
        rw [hje]
        omega
      refine ⟨?_, ?_⟩
      · rw [hjsz, hoff, hje]
      · rw [hjsz, hpos, hje]
        rw [segData_congr_append _ _ _ _ _ (by omega)]
        have hp : (st0.append
            (encodeRecord { value := v, offset := sl.next_offset })).2.2 =
            st0.size := rfl
        rw [hp, hssz, hdata]

/-- One successful `Log::append` step: the assigned offset is the global next
offset `init + vs.length` and the resulting log satisfies the invariant for
the extended value list (with or without rollover). -/
theorem LogWF_append_step (c : Config) (init : Nat) (vs : List (List Nat))
    (v : List Nat) (l : Log) (o : Nat) (l' : Log)
    (hwf : LogWF c init vs l)
    (h : l.append ⟨v, 0⟩ = some (.ok (some o), l')) :
    o = init + vs.length ∧ LogWF c init (vs ++ [v]) l' := by
  obtain ⟨segs, hsegs, hne, hcfg, hact, hch⟩ := hwf
  obtain ⟨sl, hsl⟩ : ∃ sl, segs.getLast? = some sl := by
    cases hh : segs.getLast? with
    | none => exact absurd (List.getLast?_eq_none_iff.mp hh) hne
    | some s => exact ⟨s, rfl⟩
  have hslnext : sl.next_offset = init + vs.length :=
    SegChain.last_next hch sl hsl
  have hslok : SegOK c init vs sl :=
    SegChain.mem_ok hch sl (List.mem_of_mem_getLast? hsl)
  have hget : l.segments[l.active_segment]? = some (some sl) := by
    rw [hsegs, List.getElem?_map, hact]
    rw [show segs[segs.length - 1]? = segs.getLast? from
      (List.getLast?_eq_getElem? segs).symm]
    rw [hsl]
    rfl
  obtain ⟨st, ix, hst, hix, hcfg2, hinit2, hble, hnextle, hsz, hmm, hdata,
    hssz, hent⟩ := hslok
  have hokrebuild : SegOK c init vs sl :=
    ⟨st, ix, hst, hix, hcfg2, hinit2, hble, hnextle, hsz, hmm, hdata,
      hssz, hent⟩
  cases hwr : ix.write (sl.next_offset - sl.base_offset)
      (st.append (encodeRecord { value := v, offset := sl.next_offset })).2.2 with
  | error e =>
    have happ : sl.append ⟨v, 0⟩ = (.error e,
        { sl with store := some (st.append
          (encodeRecord { value := v, offset := sl.next_offset })).1 }) := by
      simp only [Segment.append, hst, hix, hwr]
    have hL : l.append ⟨v, 0⟩ = some (.error e,
        { l with segments := l.segments.set l.active_segment (some
          { sl with store := some (st.append
            (encodeRecord { value := v, offset := sl.next_offset })).1 }) }) := by
      simp only [Log.append, hget, happ]
    rw [hL] at h
    simp at h
  | ok ix1 =>
    set SEGN : Segment :=
      { sl with
        store := some (st.append
          (encodeRecord { value := v, offset := sl.next_offset })).1,
        index := some ix1,
        next_offset := sl.next_offset + 1 } with hSEGN
    have happ : sl.append ⟨v, 0⟩ = (.ok (some sl.next_offset), SEGN) := by
      simp only [Segment.append, hst, hix, hwr, hSEGN]
    have hok' : SegOK c init (vs ++ [v]) SEGN := by
      rw [hSEGN]
      exact SegOK_after_append c init vs sl v st ix ix1 hst hix hokrebuild
        hslnext hwr
    have hbase' : SEGN.base_offset = sl.base_offset := by rw [hSEGN]
    have hnext' : SEGN.next_offset = sl.next_offset + 1 := by rw [hSEGN]
    have hch1 : SegChain c init (vs ++ [v]) init
        (segs.set (segs.length - 1) SEGN) SEGN.next_offset :=
      SegChain.set_last (SegChain.extend v hch) SEGN sl hsl hbase' hok'
    have hsegs1 : l.segments.set l.active_segment (some SEGN) =
        (segs.set (segs.length - 1) SEGN).map some := by
      rw [hsegs, hact, List.map_set]
    have hlen1 : (segs.set (segs.length - 1) SEGN).length = segs.length :=
      List.length_set segs _ _
    have hne1 : segs.set (segs.length - 1) SEGN ≠ [] := by
      intro hnil
      have hlz := congrArg List.length hnil
      rw [hlen1] at hlz
      exact hne (List.length_eq_zero.mp hlz)
    by_cases hmx : SEGN.is_maxed
    · have hL : l.append ⟨v, 0⟩ = some (.ok (some sl.next_offset),
          Log.pushSegment
            { l with segments := l.segments.set l.active_segment (some SEGN) }
            (sl.next_offset + 1)) := by
        simp only [Log.append, hget, happ, hmx, if_true]
      rw [hL] at h
      simp only [Option.some.injEq, Prod.mk.injEq, Except.ok.injEq] at h
      obtain ⟨ho, hl'⟩ := h
      refine ⟨by omega, ?_⟩
      subst hl'
      refine ⟨segs.set (segs.length - 1) SEGN ++
        [freshSegment c (sl.next_offset + 1)], ?_, ?_, hcfg, ?_, ?_⟩
      · simp only [Log.pushSegment, hsegs1, hcfg, List.map_append,
          List.map_cons, List.map_nil]
      · simp
      · simp only [Log.pushSegment, List.length_append, List.length_set,
          List.length_singleton, hsegs1, List.length_map]
        simp [hsegs, hact]
      · have hchain2 := SegChain.snoc hch1 (freshSegment c (sl.next_offset + 1))
          (by rw [freshSegment_base_offset, hnext'])
          (freshSegment_SegOK c init (vs ++ [v]) (sl.next_offset + 1)
            (by simp only [List.length_append, List.length_singleton]; omega))
        rw [freshSegment_next_offset] at hchain2
        rw [show init + (vs ++ [v]).length = sl.next_offset + 1 from by
          simp only [List.length_append, List.length_singleton]; omega]
        exact hchain2
    · have hL : l.append ⟨v, 0⟩ = some (.ok (some sl.next_offset),
          { l with segments := l.segments.set l.active_segment (some SEGN) }) := by
        simp only [Log.append, hget, happ]
        rw [if_neg hmx]
      rw [hL] at h
      simp only [Option.some.injEq, Prod.mk.injEq, Except.ok.injEq] at h
      obtain ⟨ho, hl'⟩ := h
      refine ⟨by omega, ?_⟩
      subst hl'
      refine ⟨segs.set (segs.length - 1) SEGN, hsegs1, hne1, hcfg, ?_, ?_⟩
      · simp only [List.length_set]
        exact hact
      · rw [show init + (vs ++ [v]).length = SEGN.next_offset from by
          rw [hnext']
          simp only [List.length_append, List.length_singleton]
          omega]
        exact hch1

/-- Running `Log::appendValues` from any state satisfying the invariant keeps
the invariant and assigns the consecutive offsets starting at the global next
offset. -/
theorem appendValues_spec (c : Config) (init : Nat) :
    ∀ (more vs : List (List Nat)) (l : Log) (offs : List Nat) (l' : Log),
    LogWF c init vs l → l.appendValues more = some (offs, l') →
    LogWF c init (vs ++ more) l' ∧
    offs = (List.range more.length).map (fun i => init + vs.length + i) := by
  intro more
  induction more with
  | nil =>
    intro vs l offs l' hwf h
    simp only [Log.appendValues, Option.some.injEq, Prod.mk.injEq] at h
    obtain ⟨h1, h2⟩ := h
    subst h1
    subst h2
    exact ⟨by simpa using hwf, by simp⟩
  | cons v rest ih =>
    intro vs l offs l' hwf h
    simp only [Log.appendValues] at h
    cases hap : l.append ⟨v, 0⟩ with
    | none => rw [hap] at h; cases h
    | some res =>
      obtain ⟨r0, l1⟩ := res
      rw [hap] at h
      cases r0 with
      | error e => cases h
      | ok oo =>
        cases oo with
        | none => cases h
        | some o =>
          have h2 : Option.map (fun x => (o :: x.1, x.2))
              (l1.appendValues rest) = some (offs, l') := h
          cases hrec : l1.appendValues rest with
          | none => rw [hrec] at h2; cases h2
          | some p =>
            obtain ⟨offs1, lf⟩ := p
            rw [hrec] at h2
            simp only [Option.map, Option.some.injEq, Prod.mk.injEq] at h2
            obtain ⟨hoffs, hlf⟩ := h2
            subst hoffs
            subst hlf
            obtain ⟨ho, hwf1⟩ := LogWF_append_step c init vs v l o l1 hwf hap
            obtain ⟨hwf2, hoffs1⟩ :=
              ih (vs ++ [v]) l1 offs1 lf hwf1 hrec
            constructor
            · rw [show vs ++ v :: rest = (vs ++ [v]) ++ rest from by simp]
              exact hwf2
            · rw [List.length_cons, List.range_succ_eq_map, List.map_cons,
                List.map_map]
              have hhd : o = init + vs.length + 0 := by omega
              have htl : offs1 = (List.range rest.length).map
                  ((fun i => init + vs.length + i) ∘ Nat.succ) := by
                rw [hoffs1]
                apply List.map_congr_left
                intro x hx
                simp only [Function.comp, List.length_append,
                  List.length_singleton]
                omega
              rw [← hhd, ← htl]

/-- C1: starting from an empty directory, after any sequence of successful
appends, `read_at_offset(k)` for each assigned offset `k` returns a record
whose value is the value appended at `k`.  The bounds keep every byte count
below `2^64` and the record count below `2^32`, as the machine integers of
the code do. -/
theorem c1_append_read_roundtrip (c : Config) (vs : List (List Nat))
    (offs : List Nat) (l' : Log)
    (h : (Log.newEmpty c).appendValues vs = some (offs, l'))
    (hbytes : totalBytes vs < 2 ^ 64)
    (hcount : vs.length < 2 ^ 32) :
    ∀ i, i < vs.length →
      extractValue (l'.read_at_offset (offs.getD i 0)) =
        some (vs.getD i []) := by
  have hwf0 : LogWF c.normalize c.normalize.initial_offset []
      (Log.newEmpty c) := by
    refine ⟨[freshSegment c.normalize c.normalize.initial_offset], rfl,
      by simp, rfl, rfl, ?_⟩
    have hb := freshSegment_base_offset c.normalize c.normalize.initial_offset
    have hn := freshSegment_next_offset c.normalize c.normalize.initial_offset
    have hchain : SegChain c.normalize c.normalize.initial_offset []
        (freshSegment c.normalize c.normalize.initial_offset).base_offset
        [freshSegment c.normalize c.normalize.initial_offset]
        (freshSegment c.normalize c.normalize.initial_offset).next_offset :=
      SegChain.cons _ [] _
        (freshSegment_SegOK c.normalize c.normalize.initial_offset []
          c.normalize.initial_offset (by simp))
        (SegChain.nil _)
    rw [hb, hn] at hchain
    simpa using hchain
  obtain ⟨hwf', hoffs⟩ := appendValues_spec c.normalize
    c.normalize.initial_offset vs [] (Log.newEmpty c) offs l' hwf0 h
  rw [List.nil_append] at hwf'
  intro i hi
  have hoi : offs.getD i 0 = c.normalize.initial_offset + i := by
    rw [hoffs, List.getD_eq_getElem?_getD, List.getElem?_map,
      List.getElem?_range hi]
    simp
  obtain ⟨segs, hsegs, hne, hcfg, hact, hch⟩ := hwf'
  obtain ⟨s, hfind, hsok, hslo, hshi⟩ :=
    SegChain.find_covering hch (c.normalize.initial_offset + i)
      (by omega) (by simp at hch ⊢; omega)
  rw [hoi]
  simp only [Log.read_at_offset, hsegs, hfind]
  have hrd := SegOK_read c.normalize c.normalize.initial_offset vs s hsok
    (c.normalize.initial_offset + i) hslo hshi hcount hbytes
  rw [show c.normalize.initial_offset + i - c.normalize.initial_offset = i
    from by omega] at hrd
  exact hrd

/-- Witness for C1: two appends (with rollover) read back at offset 0. -/
theorem c1_append_read_roundtrip_witness :
    extractValue (c1Log.read_at_offset (c1Offs.getD 0 0)) = some [1, 2] :=
  c1_append_read_roundtrip ⟨32, 36, 0⟩ [[1, 2], [3]] c1Offs c1Log
    (by decide) (by decide) (by decide) 0 (by decide)

/-- Witness for C9 at the two-segment log produced by two appends of
`[1, 2]` and `[3]` under `max_store_bytes = 32`. -/
theorem c9_reopen_preserves_offsets_witness :
    (reopenLog c1Log.config c1Segs).lowestOffset = c1Log.lowestOffset ∧
    (reopenLog c1Log.config c1Segs).highestOffset = c1Log.highestOffset := by
  have h := c9_reopen_preserves_offsets c1Log c1Segs (by decide) (by decide)
    (by decide)
  exact ⟨h.1, h.2.1⟩

/-- Witness for C7: truncating the three-record two-segment log at 1 removes
the first segment (offsets 0 and 1) and `read_at_offset 0` then fails. -/
theorem c7_truncate_spec_witness :
    (c7Log.truncate 1).read_at_offset 0 = .error (.offsetOutOfRange 0) :=
  (c7_truncate_spec c7Log c7Segs 1 (by decide) (by decide)).2.2 0 (by decide)
    ⟨c7Segs.getD 0 (freshSegment ⟨32, 36, 0⟩ 0), by decide, by decide, by decide,
      by decide⟩

end Proglog
